import Mathlib

/-!
# Verification of the pdfizer text-to-outline parser

Shallow embedding of `parse_text_to_structure` from `pdfizer.py`: a
five-step regex normalizer followed by a line-oriented state machine that
builds an outline of sections and subsections.  Strings are modelled as
`List Char`; each Python `re.sub` is modelled by a scanner that walks the
character list left to right, exactly mirroring the leftmost, greedy,
non-overlapping semantics of `re.sub` for these particular patterns.
-/

namespace Pdfizer

/-- Python `\s` (whitespace) on `str` patterns, by Unicode code point:
space, `\t`..`\r` (9-13), file/group/record/unit separators (28-31),
NEL (133), NBSP (160), OGHAM SPACE (5760), the EN QUAD..HAIR SPACE block
(8192-8202), LINE/PARAGRAPH SEPARATOR (8232, 8233), NARROW NBSP (8239),
MEDIUM MATHEMATICAL SPACE (8287) and IDEOGRAPHIC SPACE (12288). -/
def pyIsSpace (c : Char) : Bool :=
  c.toNat = 32 || (9 ≤ c.toNat && c.toNat ≤ 13) || (28 ≤ c.toNat && c.toNat ≤ 31) ||
  c.toNat = 133 || c.toNat = 160 || c.toNat = 5760 || (8192 ≤ c.toNat && c.toNat ≤ 8202) ||
  c.toNat = 8232 || c.toNat = 8233 || c.toNat = 8239 || c.toNat = 8287 || c.toNat = 12288

/-- Line boundaries recognized by Python `str.splitlines`:
`\n`, `\r`, `\v`, `\f`, `\x1c`..`\x1e`, NEL (133), LINE SEPARATOR (8232)
and PARAGRAPH SEPARATOR (8233).  (`\r\n` is treated as one boundary.) -/
def pyIsLineBreak (c : Char) : Bool :=
  c.toNat = 10 || c.toNat = 13 || c.toNat = 11 || c.toNat = 12 ||
  (28 ≤ c.toNat && c.toNat ≤ 30) || c.toNat = 133 || c.toNat = 8232 || c.toNat = 8233

/-- ASCII decimal digit, the characters matched by `\d` on the inputs in
scope (non-ASCII Unicode decimal digits are not modelled). -/
def pyIsDigit (c : Char) : Bool := 48 ≤ c.toNat && c.toNat ≤ 57

/-- ASCII uppercase letter, the character class `[A-Z]`. -/
def pyIsUpper (c : Char) : Bool := 65 ≤ c.toNat && c.toNat ≤ 90

/-- The literal pattern of line 23: `"Score:"`. -/
def scorePat : List Char := ("Score:").toList

/-- Line 23, `re.sub("Score:.*", "", data, flags=re.DOTALL)`: with DOTALL
the first occurrence of `"Score:"` matches through the end of the input,
so everything from the first occurrence onward is removed. -/
def scoreStrip : List Char → List Char
  | [] => []
  | c :: rest => if scorePat.isPrefixOf (c :: rest) then [] else c :: scoreStrip rest

/-- The replacement bullet prefix of line 25:
five `&nbsp;` placeholders, a dash, one `&nbsp;`. -/
def bullet : List Char := ("&nbsp;&nbsp;&nbsp;&nbsp;&nbsp;-&nbsp;").toList

/-- The replacement of line 24: a newline followed by the bullet prefix. -/
def bulletNl : List Char := '\n' :: bullet

/-- Match attempt for `\s+\-` at the head of the input: at least one
whitespace character (greedily, the whole run) followed by a dash.
Returns the remainder after the dash on success. -/
def tryWsDash : List Char → Option (List Char)
  | [] => none
  | c :: rest =>
    if pyIsSpace c then
      match rest.dropWhile pyIsSpace with
      | '-' :: r => some r
      | _ => none
    else none

/-- Fuelled scanner for line 24,
`re.sub(r"\s+\-", "\n&nbsp;&nbsp;&nbsp;&nbsp;&nbsp;-&nbsp;", data)`:
replace each leftmost non-overlapping match, continuing after it. -/
def subWsDashF : Nat → List Char → List Char
  | 0, s => s
  | _ + 1, [] => []
  | f + 1, c :: rest =>
    match tryWsDash (c :: rest) with
    | some r => bulletNl ++ subWsDashF f r
    | none => c :: subWsDashF f rest

/-- Line 24 substitution (fuel `s.length` always suffices: a match
consumes at least two characters). -/
def subWsDash (s : List Char) : List Char := subWsDashF s.length s

/-- The literal word of the line-25 pattern. -/
def sentencePat : List Char := ("Sentence").toList

/-- Match attempt for `Sentence\s*\d+:\s*` at the head of the input:
the literal `"Sentence"`, a greedy possibly-empty whitespace run, a greedy
nonempty digit run, a colon, then a greedy possibly-empty whitespace run.
Returns the remainder after the trailing whitespace on success. -/
def trySentence (s : List Char) : Option (List Char) :=
  if sentencePat.isPrefixOf s then
    match (((s.drop 8).dropWhile pyIsSpace).dropWhile pyIsDigit) with
    | x :: r2 =>
      if x = ':' && !(((s.drop 8).dropWhile pyIsSpace).takeWhile pyIsDigit).isEmpty then
        some (r2.dropWhile pyIsSpace)
      else none
    | [] => none
  else none

/-- Fuelled scanner for line 25,
`re.sub(r"Sentence\s*\d+:\s*", "&nbsp;&nbsp;&nbsp;&nbsp;&nbsp;-&nbsp;", data)`. -/
def subSentenceF : Nat → List Char → List Char
  | 0, s => s
  | _ + 1, [] => []
  | f + 1, c :: rest =>
    match trySentence (c :: rest) with
    | some r => bullet ++ subSentenceF f r
    | none => c :: subSentenceF f rest

/-- Line 25 substitution (a match consumes at least ten characters). -/
def subSentence (s : List Char) : List Char := subSentenceF s.length s

/-- Generic fuelled literal-string substitution: replace each leftmost
non-overlapping occurrence of `pat` by `repl`, continuing after the
occurrence (so `repl` itself is never rescanned). -/
def subLit (pat repl : List Char) : Nat → List Char → List Char
  | 0, s => s
  | _ + 1, [] => []
  | f + 1, c :: rest =>
    if pat.isPrefixOf (c :: rest) then repl ++ subLit pat repl f ((c :: rest).drop pat.length)
    else c :: subLit pat repl f rest

/-- The literal pattern of line 26: blank line, blank line, label. -/
def transPat : List Char := ("\n\nTranscription(s):").toList

/-- The literal `"<br/>"` marker used as a replacement. -/
def brTok : List Char := ("<br/>").toList

/-- Line 26, `re.sub(r"\n\nTranscription\(s\):", "<br/>", data, flags=re.DOTALL)`. -/
def subTrans (s : List Char) : List Char := subLit transPat brTok s.length s

/-- The literal pattern of line 27. -/
def recPat : List Char := ("Recommendation(s):").toList

/-- Line 27, `re.sub(r"Recommendation\(s\):", "<br/>Recommendation(s):", data)`. -/
def subRec (s : List Char) : List Char := subLit recPat (brTok ++ recPat) s.length s

/-- The whole normalizer: lines 23-27 of `parse_text_to_structure`,
applied in source order. -/
def normalize (s : List Char) : List Char :=
  subRec (subTrans (subSentence (subWsDash (scoreStrip s))))

/-- Worker for `str.splitlines`; `acc` is the current line, reversed.
A `\r\n` pair counts as a single boundary. -/
def splitlinesGo (acc : List Char) : List Char → List (List Char)
  | [] => if acc.isEmpty then [] else [acc.reverse]
  | '\r' :: '\n' :: rest => acc.reverse :: splitlinesGo [] rest
  | c :: rest =>
    if pyIsLineBreak c then acc.reverse :: splitlinesGo [] rest
    else splitlinesGo (c :: acc) rest

/-- Python `str.splitlines` (line 39, `data.splitlines()`): split at line
boundaries, no trailing empty line for a trailing boundary. -/
def pySplitlines (s : List Char) : List (List Char) := splitlinesGo [] s

/-- The first character exists and is whitespace. -/
def headIsSpace : List Char → Bool
  | [] => false
  | c :: _ => pyIsSpace c

/-- `re.match(r'^([A-Z]\.)\s+(.*)', line)` of line 30: an uppercase letter,
a period, at least one whitespace character (the run greedily consumed),
then the rest of the line up to a newline (`.` does not match `'\n'`).
Returns (label, captured remainder). -/
def matchMain : List Char → Option (List Char × List Char)
  | c :: d :: r :: rest =>
    if d = '.' && pyIsUpper c && pyIsSpace r then
      some ([c, '.'], (((r :: rest).dropWhile pyIsSpace).takeWhile (fun x => x != '\n')))
    else none
  | _ => none

/-- `re.match(r'^([A-Z]\.\d+)\s+(.*)', line)` of line 31: an uppercase
letter, a period, a greedy nonempty digit run, at least one whitespace
character (the run greedily consumed), then the rest of the line up to a
newline. -/
def matchSub : List Char → Option (List Char × List Char)
  | c :: d :: rest =>
    if d = '.' && pyIsUpper c && !(rest.takeWhile pyIsDigit).isEmpty &&
        headIsSpace (rest.dropWhile pyIsDigit) then
      some (c :: '.' :: rest.takeWhile pyIsDigit,
            (((rest.dropWhile pyIsDigit).dropWhile pyIsSpace).takeWhile (fun x => x != '\n')))
    else none
  | _ => none

/-- A subsection node: the dict `{'number': ..., 'text': ...}`. -/
structure Subsec where
  number : List Char
  text : List Char
deriving DecidableEq

/-- A section node: the dict `{'number': ..., 'text': ..., 'subsections': ...}`. -/
structure Sect where
  number : List Char
  text : List Char
  subsections : List Subsec
deriving DecidableEq

/-- Parser state: `structured_data`, and the identity of `current_main` /
`current_subsection` given by labels (in the Python code these are aliases
into `structured_data`; labels identify them uniquely since a node is only
appended when no node with its label exists).  `current_subsection` is
non-`None` only while `current_main` is, hence the nested option.
`warns` records the printed warnings as (1-based line number, line). -/
structure PState where
  out : List Sect
  active : Option (List Char × Option (List Char))
  warns : List (Nat × List Char)
deriving DecidableEq

/-- Rewrite the section with label `mlab` (all sections carrying it). -/
def updateSect (out : List Sect) (mlab : List Char) (f : Sect → Sect) : List Sect :=
  out.map (fun s => if s.number = mlab then f s else s)

/-- Append `"\n" + stxt` to the text of subsection `slab` of section `mlab`
(line 75, `existing_sub['text'] += f'\n{sub_text}'`, and line 88). -/
def updateSub (out : List Sect) (mlab slab stxt : List Char) : List Sect :=
  updateSect out mlab (fun s =>
    { s with subsections := (s.subsections.map
        (fun sb => if sb.number = slab then { sb with text := sb.text ++ '\n' :: stxt } else sb)) })

/-- Line 52: first section with the given label, if any. -/
def findSect (out : List Sect) (lab : List Char) : Option Sect :=
  out.find? (fun s => s.number == lab)

/-- One iteration of the `for line_num, line in enumerate(lines, start=1)`
loop (lines 41-92): skip empty lines; try the section pattern, then the
subsection pattern (only effective with an active section), else treat the
line as continuation text, else warn. -/
def step (st : PState) (ln : Nat) (line : List Char) : PState :=
  if line.isEmpty then st
  else
    match matchMain line with
    | some (mlab, mtxt) =>
      match findSect st.out mlab with
      | some _ => { st with active := some (mlab, none) }
      | none =>
        { st with out := st.out ++ [{ number := mlab, text := mtxt, subsections := [] }],
                  active := some (mlab, none) }
    | none =>
      match matchSub line, st.active with
      | some (slab, stxt), some (mlab, _) =>
        match findSect st.out mlab with
        | some sec =>
          if (sec.subsections.find? (fun sb => sb.number == slab)).isSome then
            { st with out := updateSub st.out mlab slab stxt, active := some (mlab, some slab) }
          else
            { st with out := (updateSect st.out mlab
                (fun s => { s with subsections := s.subsections ++ [{ number := slab, text := stxt }] })),
                      active := some (mlab, some slab) }
        | none => st
      | _, _ =>
        match st.active with
        | some (mlab, some slab) => { st with out := updateSub st.out mlab slab line }
        | some (mlab, none) =>
          { st with out := updateSect st.out mlab (fun s => { s with text := s.text ++ '\n' :: line }) }
        | none => { st with warns := st.warns ++ [(ln, line)] }

/-- The loop of lines 41-92, starting at line number `ln`. -/
def runFrom (st : PState) (ln : Nat) : List (List Char) → PState
  | [] => st
  | l :: ls => runFrom (step st ln l) (ln + 1) ls

/-- The initial state: empty outline, no active nodes, no warnings. -/
def initState : PState := { out := [], active := none, warns := [] }

/-- Run the loop on a list of lines from the initial state. -/
def runLines (ls : List (List Char)) : PState := runFrom initState 1 ls

/-- `parse_text_to_structure` (lines 11-94): normalize, split into lines,
run the state machine, return `structured_data`. -/
def parse_text_to_structure (s : List Char) : List Sect :=
  (runLines (pySplitlines (normalize s))).out

/-- Split a text at each `'\n'`; always returns at least one piece
(`splitNl [] = [[]]`), and joining the pieces with `'\n'` restores the text. -/
def splitNlGo (acc : List Char) : List Char → List (List Char)
  | [] => [acc.reverse]
  | c :: rest =>
    if c = '\n' then acc.reverse :: splitNlGo [] rest else splitNlGo (c :: acc) rest

/-- Split a text at each `'\n'`. -/
def splitNl (t : List Char) : List (List Char) := splitNlGo [] t

/-- Join lines with single `'\n'` separators (no trailing newline). -/
def joinNl : List (List Char) → List Char
  | [] => []
  | [p] => p
  | p :: q :: ps => p ++ '\n' :: joinNl (q :: ps)

/-- Modelled from the spec: the re-serialization of one outline node per
section 4.3 without the colon-emphasis and spacing cosmetics — its label,
a space, and its text, internal newlines kept as line breaks.  The first
text piece shares the label's line; later pieces are their own lines. -/
def nodeLines (lab t : List Char) : List (List Char) :=
  match splitNl t with
  | p :: ps => (lab ++ ' ' :: p) :: ps
  | [] => [lab ++ [' ']]

/-- Modelled from the spec: the lines of a re-serialized Section — the
section node followed by each of its subsection nodes. -/
def sectLines (s : Sect) : List (List Char) :=
  nodeLines s.number s.text ++ s.subsections.flatMap (fun sb => nodeLines sb.number sb.text)

/-- Modelled from the spec: the lines of a re-serialized Outline. -/
def serializeLines (o : List Sect) : List (List Char) :=
  o.flatMap sectLines

/-- Modelled from the spec: the re-serialization of an Outline, per
section 4.3 without cosmetics, as one text blob. -/
def serializeOutline (o : List Sect) : List Char :=
  joinNl (serializeLines o)

/-- A section label of the shape the parser produces: an uppercase letter
followed by a period. -/
def sectLabelOk : List Char → Bool
  | [c, p] => pyIsUpper c && p = '.'
  | _ => false

/-- A subsection label of the shape the parser produces: an uppercase
letter, a period, one or more digits. -/
def subLabelOk : List Char → Bool
  | c :: p :: ds => pyIsUpper c && p = '.' && !ds.isEmpty && ds.all pyIsDigit
  | _ => false

/-- A non-initial piece of an accumulated text that round-trips: nonempty
(an empty line would be skipped), matches neither label pattern (it came
from a continuation line or a merged remainder that matches neither), and
free of line-break characters. -/
def pieceTailOk (p : List Char) : Bool :=
  !p.isEmpty && (matchMain p).isNone && (matchSub p).isNone &&
    p.all (fun c => !pyIsLineBreak c)

/-- The first character, if any, is not whitespace. -/
def headNotSpace : List Char → Bool
  | [] => true
  | c :: _ => !pyIsSpace c

/-- An accumulated text that round-trips: its first piece does not begin
with whitespace (the label patterns consume whitespace greedily) and is
free of line-break characters; every later piece satisfies `pieceTailOk`. -/
def textOk (t : List Char) : Bool :=
  match splitNl t with
  | p :: ps => headNotSpace p && p.all (fun c => !pyIsLineBreak c) && ps.all pieceTailOk
  | [] => true

/-- A well-formed outline: labels of the produced shapes, unique at each
level, all texts round-trippable, and a re-serialization that the
normalizer leaves unchanged. -/
def WFOutline (o : List Sect) : Prop :=
  (o.map Sect.number).Nodup ∧
  normalize (serializeOutline o) = serializeOutline o ∧
  ∀ s ∈ o, sectLabelOk s.number = true ∧ textOk s.text = true ∧
    (s.subsections.map Subsec.number).Nodup ∧
    ∀ sb ∈ s.subsections, subLabelOk sb.number = true ∧ textOk sb.text = true

/-- The label of the last subsection of a section, if any: the active
subsection after the section's serialized block has been re-parsed. -/
def lastSubLab (s : Sect) : Option (List Char) :=
  s.subsections.getLast?.map Subsec.number

/-- Modelled from the spec (claim C9's reading of the sentence-callout
rule): the pattern `"Sentence"`, whitespace, one or more digits,
whitespace, then a colon — note the whitespace slot between the digits
and the colon, which the code's pattern `Sentence\s*\d+:\s*` lacks. -/
def trySentenceSpec (s : List Char) : Option (List Char) :=
  if sentencePat.isPrefixOf s then
    match ((((s.drop 8).dropWhile pyIsSpace).dropWhile pyIsDigit).dropWhile pyIsSpace) with
    | x :: r2 =>
      if x = ':' && !(((s.drop 8).dropWhile pyIsSpace).takeWhile pyIsDigit).isEmpty then
        some r2
      else none
    | [] => none
  else none

/-- Modelled from the spec: the sentence-callout rewrite with claim C9's
pattern, for comparison with the code's `subSentence`. -/
def subSentenceSpecF : Nat → List Char → List Char
  | 0, s => s
  | _ + 1, [] => []
  | f + 1, c :: rest =>
    match trySentenceSpec (c :: rest) with
    | some r => bullet ++ subSentenceSpecF f r
    | none => c :: subSentenceSpecF f rest

/-- Modelled from the spec: claim C9's sentence-callout rewrite. -/
def subSentenceSpec (s : List Char) : List Char := subSentenceSpecF s.length s

/-- No occurrence of the code's sentence pattern anywhere in the text:
`trySentence` fails at every suffix. -/
def NoSent : List Char → Prop
  | [] => True
  | c :: rest => trySentence (c :: rest) = none ∧ NoSent rest

/-! ## Character-class facts -/

theorem digit_not_space {c : Char} (h : pyIsDigit c = true) : pyIsSpace c = false := by
  simp only [pyIsDigit, Bool.and_eq_true, decide_eq_true_eq] at h
  simp only [pyIsSpace, Bool.or_eq_false_iff, Bool.and_eq_false_iff,
    decide_eq_false_iff_not] at *
  omega

theorem digit_not_break {c : Char} (h : pyIsDigit c = true) : pyIsLineBreak c = false := by
  simp only [pyIsDigit, Bool.and_eq_true, decide_eq_true_eq] at h
  simp only [pyIsLineBreak, Bool.or_eq_false_iff, Bool.and_eq_false_iff,
    decide_eq_false_iff_not] at *
  omega

theorem upper_not_space {c : Char} (h : pyIsUpper c = true) : pyIsSpace c = false := by
  simp only [pyIsUpper, Bool.and_eq_true, decide_eq_true_eq] at h
  simp only [pyIsSpace, Bool.or_eq_false_iff, Bool.and_eq_false_iff,
    decide_eq_false_iff_not] at *
  omega

theorem upper_not_break {c : Char} (h : pyIsUpper c = true) : pyIsLineBreak c = false := by
  simp only [pyIsUpper, Bool.and_eq_true, decide_eq_true_eq] at h
  simp only [pyIsLineBreak, Bool.or_eq_false_iff, Bool.and_eq_false_iff,
    decide_eq_false_iff_not] at *
  omega

theorem ne_nl_of_not_break {x : Char} (h : pyIsLineBreak x = false) : (x != '\n') = true := by
  rcases eq_or_ne x '\n' with rfl | hne
  · exact absurd h (by decide)
  · simpa using hne

/-! ## Small list facts -/

theorem takeWhile_all_append {q : Char → Bool} {xs ys : List Char}
    (h : ∀ x ∈ xs, q x = true) :
    (xs ++ ys).takeWhile q = xs ++ ys.takeWhile q := by
  induction xs with
  | nil => simp
  | cons a l ih =>
    simp [List.takeWhile_cons, h a (by simp), ih (fun x hx => h x (by simp [hx]))]

theorem dropWhile_all_append {q : Char → Bool} {xs ys : List Char}
    (h : ∀ x ∈ xs, q x = true) :
    (xs ++ ys).dropWhile q = ys.dropWhile q := by
  induction xs with
  | nil => simp
  | cons a l ih =>
    simp only [List.cons_append, List.dropWhile_cons, h a (by simp), if_true]
    exact ih (fun x hx => h x (by simp [hx]))

theorem dropWhile_space_eq_self {p : List Char} (h : headNotSpace p = true) :
    p.dropWhile pyIsSpace = p := by
  cases p with
  | nil => rfl
  | cons c l =>
    simp only [headNotSpace, Bool.not_eq_true'] at h
    simp [List.dropWhile_cons, h]

theorem takeWhile_ne_nl_eq_self {p : List Char}
    (h : p.all (fun c => !pyIsLineBreak c) = true) :
    p.takeWhile (fun x => x != '\n') = p := by
  induction p with
  | nil => rfl
  | cons c l ih =>
    simp only [List.all_cons, Bool.and_eq_true, Bool.not_eq_true'] at h
    simp [List.takeWhile_cons, ne_nl_of_not_break h.1, ih (by simpa using h.2)]

/-! ## Label and matcher facts -/

theorem sectLabelOk_spec {lab : List Char} (h : sectLabelOk lab = true) :
    ∃ c, lab = [c, '.'] ∧ pyIsUpper c = true := by
  rcases lab with _ | ⟨c, _ | ⟨d, _ | ⟨e, r⟩⟩⟩
  · exact absurd h (by simp [sectLabelOk])
  · exact absurd h (by simp [sectLabelOk])
  · simp only [sectLabelOk, Bool.and_eq_true, decide_eq_true_eq] at h
    exact ⟨c, by rw [h.2], h.1⟩
  · exact absurd h (by simp [sectLabelOk])

theorem subLabelOk_spec {lab : List Char} (h : subLabelOk lab = true) :
    ∃ c ds, lab = c :: '.' :: ds ∧ pyIsUpper c = true ∧ ds ≠ [] ∧ ds.all pyIsDigit = true := by
  rcases lab with _ | ⟨c, _ | ⟨d, ds⟩⟩
  · exact absurd h (by simp [subLabelOk])
  · exact absurd h (by simp [subLabelOk])
  · simp only [subLabelOk, Bool.and_eq_true, decide_eq_true_eq, Bool.not_eq_true'] at h
    refine ⟨c, ds, by rw [h.1.1.2], h.1.1.1, ?_, h.2⟩
    intro hnil
    rw [hnil] at h
    simp at h

theorem matchMain_glue {lab p : List Char} (hlab : sectLabelOk lab = true)
    (hp : headNotSpace p = true) (hnb : p.all (fun c => !pyIsLineBreak c) = true) :
    matchMain (lab ++ ' ' :: p) = some (lab, p) := by
  obtain ⟨c, rfl, hc⟩ := sectLabelOk_spec hlab
  show matchMain (c :: '.' :: ' ' :: p) = some ([c, '.'], p)
  simp [matchMain, hc, List.dropWhile_cons, show pyIsSpace ' ' = true from by decide,
    dropWhile_space_eq_self hp, takeWhile_ne_nl_eq_self hnb]

theorem matchSub_glue {lab p : List Char} (hlab : subLabelOk lab = true)
    (hp : headNotSpace p = true) (hnb : p.all (fun c => !pyIsLineBreak c) = true) :
    matchSub (lab ++ ' ' :: p) = some (lab, p) := by
  obtain ⟨c, ds, rfl, hc, hne, hdig⟩ := subLabelOk_spec hlab
  show matchSub (c :: '.' :: (ds ++ ' ' :: p)) = some (c :: '.' :: ds, p)
  have hdigs : ∀ x ∈ ds, pyIsDigit x = true := fun x hx => List.all_eq_true.mp hdig x hx
  have htw : (ds ++ ' ' :: p).takeWhile pyIsDigit = ds := by
    rw [takeWhile_all_append hdigs]
    simp [List.takeWhile_cons, show pyIsDigit ' ' = false from by decide]
  have hdw : (ds ++ ' ' :: p).dropWhile pyIsDigit = ' ' :: p := by
    rw [dropWhile_all_append hdigs]
    simp [List.dropWhile_cons, show pyIsDigit ' ' = false from by decide]
  have hdse : ds.isEmpty = false := by
    cases ds with
    | nil => exact absurd rfl hne
    | cons _ _ => rfl
  simp [matchSub, hc, htw, hdw, hdse, headIsSpace, show pyIsSpace ' ' = true from by decide,
    List.dropWhile_cons, dropWhile_space_eq_self hp, takeWhile_ne_nl_eq_self hnb]

theorem matchMain_glue_sub {lab p : List Char} (hlab : subLabelOk lab = true) :
    matchMain (lab ++ ' ' :: p) = none := by
  obtain ⟨c, ds, rfl, hc, hne, hdig⟩ := subLabelOk_spec hlab
  cases ds with
  | nil => exact absurd rfl hne
  | cons e ds' =>
    have he : pyIsDigit e = true := List.all_eq_true.mp hdig e (by simp)
    show matchMain (c :: '.' :: e :: (ds' ++ ' ' :: p)) = none
    simp [matchMain, digit_not_space he]

theorem matchMain_none_of_matchSub {l : List Char} {x : List Char × List Char}
    (h : matchSub l = some x) : matchMain l = none := by
  rcases l with _ | ⟨c, _ | ⟨d, rest⟩⟩
  · simp [matchSub] at h
  · simp [matchSub] at h
  · by_cases hguard : (d = '.' && pyIsUpper c && !(rest.takeWhile pyIsDigit).isEmpty &&
        headIsSpace (rest.dropWhile pyIsDigit)) = true
    · simp only [Bool.and_eq_true, decide_eq_true_eq] at hguard
      obtain ⟨⟨⟨hd, hc⟩, hne⟩, hsp⟩ := hguard
      subst hd
      cases rest with
      | nil => simp at hne
      | cons e rest' =>
        by_cases he : pyIsDigit e = true
        · show matchMain (c :: '.' :: e :: rest') = none
          simp [matchMain, digit_not_space he]
        · simp only [Bool.not_eq_true] at he
          rw [List.takeWhile_cons, he] at hne
          simp at hne
    · rw [matchSub, if_neg (by simpa using hguard)] at h
      exact absurd h (by simp)

theorem matchMain_some_ne_nil {l : List Char} {x : List Char × List Char}
    (h : matchMain l = some x) : l.isEmpty = false := by
  cases l with
  | nil => simp [matchMain] at h
  | cons c r => simp

theorem matchSub_some_ne_nil {l : List Char} {x : List Char × List Char}
    (h : matchSub l = some x) : l.isEmpty = false := by
  cases l with
  | nil => simp [matchSub] at h
  | cons c r => simp

/-! ## Step lemmas: one lemma per branch of the loop body -/

theorem step_empty (st : PState) (ln : Nat) : step st ln [] = st := rfl

theorem step_main_found {st : PState} {ln : Nat} {line mlab mtxt : List Char} {sec : Sect}
    (hm : matchMain line = some (mlab, mtxt)) (hf : findSect st.out mlab = some sec) :
    step st ln line = { st with active := some (mlab, none) } := by
  simp [step, matchMain_some_ne_nil hm, hm, hf]

theorem step_main_new {st : PState} {ln : Nat} {line mlab mtxt : List Char}
    (hm : matchMain line = some (mlab, mtxt)) (hf : findSect st.out mlab = none) :
    step st ln line = { st with out := st.out ++ [{ number := mlab, text := mtxt, subsections := [] }],
                                active := some (mlab, none) } := by
  simp [step, matchMain_some_ne_nil hm, hm, hf]

theorem step_sub_found {st : PState} {ln : Nat} {line slab stxt mlab : List Char}
    {osub : Option (List Char)} {sec : Sect}
    (hs : matchSub line = some (slab, stxt)) (ha : st.active = some (mlab, osub))
    (hf : findSect st.out mlab = some sec)
    (hex : (sec.subsections.find? (fun sb => sb.number == slab)).isSome = true) :
    step st ln line = { st with out := updateSub st.out mlab slab stxt,
                                active := some (mlab, some slab) } := by
  simp [step, matchSub_some_ne_nil hs, matchMain_none_of_matchSub hs, hs, ha, hf, hex]

theorem step_sub_new {st : PState} {ln : Nat} {line slab stxt mlab : List Char}
    {osub : Option (List Char)} {sec : Sect}
    (hs : matchSub line = some (slab, stxt)) (ha : st.active = some (mlab, osub))
    (hf : findSect st.out mlab = some sec)
    (hex : (sec.subsections.find? (fun sb => sb.number == slab)).isSome = false) :
    step st ln line = { st with out := (updateSect st.out mlab
        (fun s => { s with subsections := s.subsections ++ [{ number := slab, text := stxt }] })),
                                active := some (mlab, some slab) } := by
  simp [step, matchSub_some_ne_nil hs, matchMain_none_of_matchSub hs, hs, ha, hf, hex]

theorem step_cont_sub {st : PState} {ln : Nat} {line mlab slab : List Char}
    (hne : line.isEmpty = false) (hm : matchMain line = none) (hs : matchSub line = none)
    (ha : st.active = some (mlab, some slab)) :
    step st ln line = { st with out := updateSub st.out mlab slab line } := by
  simp [step, hne, hm, hs, ha]

theorem step_cont_main {st : PState} {ln : Nat} {line mlab : List Char}
    (hne : line.isEmpty = false) (hm : matchMain line = none) (hs : matchSub line = none)
    (ha : st.active = some (mlab, none)) :
    step st ln line = { st with out := (updateSect st.out mlab
        (fun s => { s with text := s.text ++ '\n' :: line })) } := by
  simp [step, hne, hm, hs, ha]

theorem step_orphan {st : PState} {ln : Nat} {line : List Char}
    (hne : line.isEmpty = false) (hm : matchMain line = none) (ha : st.active = none) :
    step st ln line = { st with warns := st.warns ++ [(ln, line)] } := by
  cases hs : matchSub line with
  | none => simp [step, hne, hm, hs, ha]
  | some x =>
    obtain ⟨slab, stxt⟩ := x
    simp [step, hne, hm, hs, ha]

/-! ## The outline and the active pointer do not depend on line numbers or warnings -/

theorem step_out_active_congr {st₁ st₂ : PState} (h1 : st₁.out = st₂.out)
    (h2 : st₁.active = st₂.active) (ln₁ ln₂ : Nat) (l : List Char) :
    (step st₁ ln₁ l).out = (step st₂ ln₂ l).out ∧
      (step st₁ ln₁ l).active = (step st₂ ln₂ l).active := by
  by_cases hne : l.isEmpty = true
  · simp [step, hne, h1, h2]
  · replace hne : l.isEmpty = false := by simpa using hne
    cases hm : matchMain l with
    | some v =>
      obtain ⟨mlab, mtxt⟩ := v
      cases hf : findSect st₂.out mlab with
      | some sec =>
        rw [step_main_found hm (h1 ▸ hf), step_main_found hm hf]
        exact ⟨h1, rfl⟩
      | none =>
        rw [step_main_new hm (h1 ▸ hf), step_main_new hm hf]
        exact ⟨by rw [h1], rfl⟩
    | none =>
      cases hs : matchSub l with
      | some v =>
        obtain ⟨slab, stxt⟩ := v
        cases ha : st₂.active with
        | none =>
          rw [step_orphan hne hm (h2.trans ha), step_orphan hne hm ha]
          exact ⟨h1, h2⟩
        | some pr =>
          obtain ⟨mlab, osub⟩ := pr
          have ha1 : st₁.active = some (mlab, osub) := h2.trans ha
          cases hf : findSect st₂.out mlab with
          | some sec =>
            by_cases hex : (sec.subsections.find? (fun sb => sb.number == slab)).isSome = true
            · rw [step_sub_found hs ha1 (h1 ▸ hf) hex, step_sub_found hs ha (hf) hex]
              exact ⟨by rw [h1], rfl⟩
            · replace hex : (sec.subsections.find? (fun sb => sb.number == slab)).isSome = false := by
                simpa using hex
              rw [step_sub_new hs ha1 (h1 ▸ hf) hex, step_sub_new hs ha hf hex]
              exact ⟨by rw [h1], rfl⟩
          | none =>
            have hf1 : findSect st₁.out mlab = none := by rw [h1, hf]
            simp [step, hne, hm, hs, ha, ha1, hf, hf1, h1, h2]
      | none =>
        cases ha : st₂.active with
        | none =>
          rw [step_orphan hne hm (h2.trans ha), step_orphan hne hm ha]
          exact ⟨h1, h2⟩
        | some pr =>
          obtain ⟨mlab, osub⟩ := pr
          have ha1 : st₁.active = some (mlab, osub) := h2.trans ha
          cases osub with
          | none =>
            rw [step_cont_main hne hm hs ha1, step_cont_main hne hm hs ha]
            exact ⟨by rw [h1], by rw [ha1, ha]⟩
          | some slab =>
            rw [step_cont_sub hne hm hs ha1, step_cont_sub hne hm hs ha]
            exact ⟨by rw [h1], by rw [ha1, ha]⟩

theorem runFrom_out_active_congr {st₁ st₂ : PState} (h1 : st₁.out = st₂.out)
    (h2 : st₁.active = st₂.active) (ln₁ ln₂ : Nat) (ls : List (List Char)) :
    (runFrom st₁ ln₁ ls).out = (runFrom st₂ ln₂ ls).out ∧
      (runFrom st₁ ln₁ ls).active = (runFrom st₂ ln₂ ls).active := by
  induction ls generalizing st₁ st₂ ln₁ ln₂ with
  | nil => exact ⟨h1, h2⟩
  | cons l ls ih =>
    obtain ⟨h1', h2'⟩ := step_out_active_congr h1 h2 ln₁ ln₂ l
    exact ih h1' h2' (ln₁ + 1) (ln₂ + 1)

/-! ## Run decomposition and warning structure -/

theorem runFrom_append (st : PState) (n : Nat) (as bs : List (List Char)) :
    runFrom st n (as ++ bs) = runFrom (runFrom st n as) (n + as.length) bs := by
  induction as generalizing st n with
  | nil => simp [runFrom]
  | cons a l ih =>
    show runFrom (step st n a) (n + 1) (l ++ bs) = _
    rw [ih]
    congr 1
    simp [List.length_cons]
    omega

theorem step_warns_mono (st : PState) (ln : Nat) (l : List Char) :
    (step st ln l).warns = st.warns ∨ (step st ln l).warns = st.warns ++ [(ln, l)] := by
  by_cases hne : l.isEmpty = true
  · simp [step, hne]
  · replace hne : l.isEmpty = false := by simpa using hne
    cases hm : matchMain l with
    | some v =>
      obtain ⟨mlab, mtxt⟩ := v
      cases hf : findSect st.out mlab with
      | some sec => rw [step_main_found hm hf]; exact Or.inl rfl
      | none => rw [step_main_new hm hf]; exact Or.inl rfl
    | none =>
      cases hs : matchSub l with
      | some v =>
        obtain ⟨slab, stxt⟩ := v
        cases ha : st.active with
        | none => rw [step_orphan hne hm ha]; exact Or.inr rfl
        | some pr =>
          obtain ⟨mlab, osub⟩ := pr
          cases hf : findSect st.out mlab with
          | some sec =>
            by_cases hex : (sec.subsections.find? (fun sb => sb.number == slab)).isSome = true
            · rw [step_sub_found hs ha hf hex]; exact Or.inl rfl
            · rw [step_sub_new hs ha hf (by simpa using hex)]; exact Or.inl rfl
          | none => simp [step, hne, hm, hs, ha, hf]
      | none =>
        cases ha : st.active with
        | none => rw [step_orphan hne hm ha]; exact Or.inr rfl
        | some pr =>
          obtain ⟨mlab, osub⟩ := pr
          cases osub with
          | none => rw [step_cont_main hne hm hs ha]; exact Or.inl rfl
          | some slab => rw [step_cont_sub hne hm hs ha]; exact Or.inl rfl

theorem runFrom_warns_mono (st : PState) (n : Nat) (ls : List (List Char)) :
    ∃ w, (runFrom st n ls).warns = st.warns ++ w := by
  induction ls generalizing st n with
  | nil => exact ⟨[], by simp [runFrom]⟩
  | cons l ls ih =>
    obtain ⟨w, hw⟩ := ih (step st n l) (n + 1)
    rcases step_warns_mono st n l with h | h
    · exact ⟨w, by rw [show runFrom st n (l :: ls) = runFrom (step st n l) (n + 1) ls from rfl, hw, h]⟩
    · exact ⟨(n, l) :: w, by
        rw [show runFrom st n (l :: ls) = runFrom (step st n l) (n + 1) ls from rfl, hw, h]
        simp⟩

/-! ## Uniqueness invariant: labels unique in the outline, and within each section -/

/-- Labels are unique at both levels.  This holds throughout the run
because a node is appended only when lookup by its label fails. -/
def OutlineInv (out : List Sect) : Prop :=
  (out.map Sect.number).Nodup ∧ ∀ sec ∈ out, (sec.subsections.map Subsec.number).Nodup

theorem findSect_eq_none_iff {out : List Sect} {lab : List Char} :
    findSect out lab = none ↔ ∀ s ∈ out, s.number ≠ lab := by
  simp [findSect, List.find?_eq_none]

theorem findSect_some_mem {out : List Sect} {lab : List Char} {sec : Sect}
    (h : findSect out lab = some sec) : sec ∈ out ∧ sec.number = lab :=
  ⟨List.mem_of_find?_eq_some h, by simpa using List.find?_some h⟩

theorem updateSect_map_number {out : List Sect} {mlab : List Char} {f : Sect → Sect}
    (hf : ∀ s, (f s).number = s.number) :
    (updateSect out mlab f).map Sect.number = out.map Sect.number := by
  simp only [updateSect, List.map_map]
  refine List.map_congr_left ?_
  intro s _
  by_cases h : s.number = mlab <;> simp [h, hf]

theorem mem_updateSect {out : List Sect} {mlab : List Char} {f : Sect → Sect} {s' : Sect}
    (h : s' ∈ updateSect out mlab f) :
    ∃ s ∈ out, s' = if s.number = mlab then f s else s := by
  obtain ⟨s, hs, rfl⟩ := List.mem_map.mp h
  exact ⟨s, hs, rfl⟩

theorem step_preserves_inv {st : PState} (hinv : OutlineInv st.out) (ln : Nat) (l : List Char) :
    OutlineInv (step st ln l).out := by
  obtain ⟨hnd, hsubs⟩ := hinv
  by_cases hne : l.isEmpty = true
  · simpa [step, hne] using ⟨hnd, hsubs⟩
  · replace hne : l.isEmpty = false := by simpa using hne
    cases hm : matchMain l with
    | some v =>
      obtain ⟨mlab, mtxt⟩ := v
      cases hf : findSect st.out mlab with
      | some sec => rw [step_main_found hm hf]; exact ⟨hnd, hsubs⟩
      | none =>
        rw [step_main_new hm hf]
        have hfresh : ∀ s ∈ st.out, s.number ≠ mlab := findSect_eq_none_iff.mp hf
        constructor
        · simp only [List.map_append, List.map_cons, List.map_nil]
          rw [List.nodup_append]
          exact ⟨hnd, List.nodup_singleton _, by
            intro x hx
            obtain ⟨s, hs, rfl⟩ := List.mem_map.mp hx
            simpa using (hfresh s hs)⟩
        · intro sec hsec
          rcases List.mem_append.mp hsec with h | h
          · exact hsubs sec h
          · simp only [List.mem_singleton] at h
            subst h
            simp
    | none =>
      cases hs : matchSub l with
      | some v =>
        obtain ⟨slab, stxt⟩ := v
        cases ha : st.active with
        | none => rw [step_orphan hne hm ha]; exact ⟨hnd, hsubs⟩
        | some pr =>
          obtain ⟨mlab, osub⟩ := pr
          cases hf : findSect st.out mlab with
          | none => simp only [step, hne, hm, hs, ha, hf]; exact ⟨hnd, hsubs⟩
          | some sec =>
            obtain ⟨hsecmem, hseclab⟩ := findSect_some_mem hf
            by_cases hex : (sec.subsections.find? (fun sb => sb.number == slab)).isSome = true
            · rw [step_sub_found hs ha hf hex]
              constructor
              · rw [updateSub, updateSect_map_number (by intro s; by_cases hl : s.number = mlab <;> simp)]
                exact hnd
              · intro s' hs'
                obtain ⟨s, hsmem, rfl⟩ := mem_updateSect hs'
                by_cases hl : s.number = mlab
                · simp only [hl, if_true]
                  have : ((s.subsections.map (fun sb =>
                      if sb.number = slab then { sb with text := sb.text ++ '\n' :: stxt } else sb)).map
                        Subsec.number) = s.subsections.map Subsec.number := by
                    simp only [List.map_map]
                    refine List.map_congr_left ?_
                    intro sb _
                    by_cases hsl : sb.number = slab <;> simp [hsl]
                  simpa [this] using hsubs s hsmem
                · simpa [hl] using hsubs s hsmem
            · replace hex : (sec.subsections.find? (fun sb => sb.number == slab)).isSome = false := by
                simpa using hex
              rw [step_sub_new hs ha hf hex]
              have hnosub : ∀ sb ∈ sec.subsections, sb.number ≠ slab := by
                intro sb hsb heq
                have : (sec.subsections.find? (fun sb => sb.number == slab)).isSome = true := by
                  rw [List.find?_isSome]
                  exact ⟨sb, hsb, by simp [heq]⟩
                rw [this] at hex
                simp at hex
              constructor
              · rw [updateSect_map_number (by intro s; by_cases hl : s.number = mlab <;> simp)]
                exact hnd
              · intro s' hs'
                obtain ⟨s, hsmem, rfl⟩ := mem_updateSect hs'
                by_cases hl : s.number = mlab
                · have hssec : s = sec :=
                    List.inj_on_of_nodup_map hnd hsmem hsecmem (by rw [hl, hseclab])
                  subst hssec
                  simp only [hl, if_true]
                  simp only [List.map_append, List.map_cons, List.map_nil]
                  rw [List.nodup_append]
                  refine ⟨hsubs s hsmem, List.nodup_singleton _, ?_⟩
                  intro x hx
                  obtain ⟨sb, hsb, rfl⟩ := List.mem_map.mp hx
                  simpa using hnosub sb hsb
                · simpa [hl] using hsubs s hsmem
      | none =>
        cases ha : st.active with
        | none => rw [step_orphan hne hm ha]; exact ⟨hnd, hsubs⟩
        | some pr =>
          obtain ⟨mlab, osub⟩ := pr
          cases osub with
          | none =>
            rw [step_cont_main hne hm hs ha]
            constructor
            · rw [updateSect_map_number (by intro s; by_cases hl : s.number = mlab <;> simp)]
              exact hnd
            · intro s' hs'
              obtain ⟨s, hsmem, rfl⟩ := mem_updateSect hs'
              by_cases hl : s.number = mlab
              · simpa [hl] using hsubs s hsmem
              · simpa [hl] using hsubs s hsmem
          | some slab =>
            rw [step_cont_sub hne hm hs ha]
            constructor
            · rw [updateSub, updateSect_map_number (by intro s; by_cases hl : s.number = mlab <;> simp)]
              exact hnd
            · intro s' hs'
              obtain ⟨s, hsmem, rfl⟩ := mem_updateSect hs'
              by_cases hl : s.number = mlab
              · simp only [hl, if_true]
                have : ((s.subsections.map (fun sb =>
                    if sb.number = slab then { sb with text := sb.text ++ '\n' :: l } else sb)).map
                      Subsec.number) = s.subsections.map Subsec.number := by
                  simp only [List.map_map]
                  refine List.map_congr_left ?_
                  intro sb _
                  by_cases hsl : sb.number = slab <;> simp [hsl]
                simpa [this] using hsubs s hsmem
              · simpa [hl] using hsubs s hsmem

theorem runFrom_preserves_inv {st : PState} (hinv : OutlineInv st.out) (n : Nat)
    (ls : List (List Char)) : OutlineInv (runFrom st n ls).out := by
  induction ls generalizing st n with
  | nil => exact hinv
  | cons l ls ih => exact ih (step_preserves_inv hinv n l) (n + 1)

theorem runLines_inv (ls : List (List Char)) : OutlineInv (runLines ls).out :=
  runFrom_preserves_inv (by constructor <;> simp [initState]) 1 ls

/-! ## More helpers -/

theorem takeWhile_all {q : Char → Bool} {xs : List Char} (h : ∀ x ∈ xs, q x = true) :
    xs.takeWhile q = xs := by
  induction xs with
  | nil => rfl
  | cons a l ih => simp [List.takeWhile_cons, h a (by simp), ih (fun x hx => h x (by simp [hx]))]

theorem dropWhile_all {q : Char → Bool} {xs : List Char} (h : ∀ x ∈ xs, q x = true) :
    xs.dropWhile q = [] := by
  induction xs with
  | nil => rfl
  | cons a l ih => simp [List.dropWhile_cons, h a (by simp), ih (fun x hx => h x (by simp [hx]))]

theorem findSect_isSome_of_mem {out : List Sect} {mlab : List Char}
    (h : mlab ∈ out.map Sect.number) : ∃ sec, findSect out mlab = some sec := by
  have : (out.find? (fun s => s.number == mlab)).isSome = true := by
    rw [List.find?_isSome]
    obtain ⟨s, hs, rfl⟩ := List.mem_map.mp h
    exact ⟨s, hs, by simp⟩
  exact Option.isSome_iff_exists.mp this

theorem find?_append_fresh {α : Type} {p : α → Bool} {pre post : List α} {x : α}
    (hpre : ∀ y ∈ pre, p y = false) (hx : p x = true) :
    (pre ++ x :: post).find? p = some x := by
  induction pre with
  | nil => simp [List.find?_cons, hx]
  | cons a l ih =>
    simp [List.find?_cons, hpre a (by simp), ih (fun y hy => hpre y (by simp [hy]))]

theorem findSect_decomp {pre post : List Sect} {sec : Sect} {mlab : List Char}
    (hpre : ∀ x ∈ pre, x.number ≠ mlab) (hsec : sec.number = mlab) :
    findSect (pre ++ sec :: post) mlab = some sec :=
  find?_append_fresh (fun y hy => by simpa using hpre y hy) (by simp [hsec])

theorem updateSect_decomp {pre post : List Sect} {sec : Sect} {mlab : List Char} {f : Sect → Sect}
    (hpre : ∀ x ∈ pre, x.number ≠ mlab) (hpost : ∀ x ∈ post, x.number ≠ mlab)
    (hsec : sec.number = mlab) :
    updateSect (pre ++ sec :: post) mlab f = pre ++ f sec :: post := by
  simp only [updateSect, List.map_append, List.map_cons, if_pos hsec]
  rw [List.map_congr_left (fun x hx => if_neg (hpre x hx)),
    List.map_congr_left (fun x hx => if_neg (hpost x hx))]
  simp

theorem map_sub_decomp {subpre subpost : List Subsec} {sb : Subsec} {slab : List Char}
    {g : Subsec → Subsec}
    (hpre : ∀ y ∈ subpre, y.number ≠ slab) (hpost : ∀ y ∈ subpost, y.number ≠ slab)
    (hsb : sb.number = slab) :
    (subpre ++ sb :: subpost).map (fun y => if y.number = slab then g y else y) =
      subpre ++ g sb :: subpost := by
  simp only [List.map_append, List.map_cons, if_pos hsb]
  rw [List.map_congr_left (fun x hx => if_neg (hpre x hx)),
    List.map_congr_left (fun x hx => if_neg (hpost x hx))]
  simp

theorem runFrom_no_main {ls : List (List Char)} {st : PState} {n : Nat}
    (hml : ∀ l ∈ ls, matchMain l = none) (ha : st.active = none) :
    (runFrom st n ls).out = st.out ∧ (runFrom st n ls).active = none := by
  induction ls generalizing st n with
  | nil => exact ⟨rfl, ha⟩
  | cons l ls ih =>
    have hm := hml l (by simp)
    show (runFrom (step st n l) (n + 1) ls).out = st.out ∧
      (runFrom (step st n l) (n + 1) ls).active = none
    by_cases hne : l.isEmpty = true
    · have hl : l = [] := by
        cases l with
        | nil => rfl
        | cons a r => simp at hne
      rw [hl, step_empty]
      exact ih (fun x hx => hml x (by simp [hx])) ha
    · replace hne : l.isEmpty = false := by simpa using hne
      rw [step_orphan hne hm ha]
      exact @ih { out := st.out, active := st.active, warns := st.warns ++ [(n, l)] } (n + 1)
        (fun x hx => hml x (by simp [hx])) ha

/-! ## Claim theorems (step-level behavior) -/

/-- Claim C2: a repeated Section label yields exactly one Section with
that label (labels in any parsed outline are unique); a Section-label line
whose label already exists leaves the outline — in particular that
Section's position and text — completely unchanged, only making the
Section active with no active subsection; a fresh Section label appends a
new Section at the end with the captured remainder as its text. -/
theorem claim_C2 :
    (∀ s : List Char, ((parse_text_to_structure s).map Sect.number).Nodup) ∧
    (∀ (st : PState) (ln : Nat) (line mlab mtxt : List Char),
      matchMain line = some (mlab, mtxt) → mlab ∈ st.out.map Sect.number →
      (step st ln line).out = st.out ∧ (step st ln line).active = some (mlab, none) ∧
        (step st ln line).warns = st.warns) ∧
    (∀ (st : PState) (ln : Nat) (line mlab mtxt : List Char),
      matchMain line = some (mlab, mtxt) → mlab ∉ st.out.map Sect.number →
      (step st ln line).out = st.out ++ [{ number := mlab, text := mtxt, subsections := [] }] ∧
        (step st ln line).active = some (mlab, none)) := by
  refine ⟨fun s => (runLines_inv _).1, ?_, ?_⟩
  · intro st ln line mlab mtxt hm hmem
    obtain ⟨sec, hf⟩ := findSect_isSome_of_mem hmem
    rw [step_main_found hm hf]
    exact ⟨rfl, rfl, rfl⟩
  · intro st ln line mlab mtxt hm hmem
    have hf : findSect st.out mlab = none := by
      rw [findSect_eq_none_iff]
      intro s hs heq
      exact hmem (List.mem_map.mpr ⟨s, hs, heq⟩)
    rw [step_main_new hm hf]
    exact ⟨rfl, rfl⟩

/-- Witness for claim C2 at concrete inputs: re-encountering label `"A."`
leaves the outline unchanged; a fresh label `"A."` is appended. -/
theorem claim_C2_witness :
    ((step { out := [{ number := ("A.").toList, text := ("x").toList, subsections := [] }],
             active := some (("A.").toList, none), warns := [] } 2 (("A. y").toList)).out =
        [{ number := ("A.").toList, text := ("x").toList, subsections := [] }] ∧
      (step { out := [{ number := ("A.").toList, text := ("x").toList, subsections := [] }],
              active := some (("A.").toList, none), warns := [] } 2 (("A. y").toList)).active =
        some (("A.").toList, none) ∧
      (step { out := [{ number := ("A.").toList, text := ("x").toList, subsections := [] }],
              active := some (("A.").toList, none), warns := [] } 2 (("A. y").toList)).warns = []) ∧
    ((step initState 1 (("A. y").toList)).out =
        [] ++ [{ number := ("A.").toList, text := ("y").toList, subsections := [] }] ∧
      (step initState 1 (("A. y").toList)).active = some (("A.").toList, none)) :=
  ⟨claim_C2.2.1 _ 2 (("A. y").toList) (("A.").toList) (("y").toList) (by decide) (by decide),
   claim_C2.2.2 initState 1 (("A. y").toList) (("A.").toList) (("y").toList) (by decide)
     (by decide)⟩

/-- Claim C7: a Section-label line always sets the active Subsection to
none (whether the Section is new or re-activated), and a continuation
line that follows it is appended to that Section's text, leaving the
Section active with still no active Subsection. -/
theorem claim_C7 :
    (∀ (st : PState) (ln : Nat) (line mlab mtxt : List Char),
      matchMain line = some (mlab, mtxt) → (step st ln line).active = some (mlab, none)) ∧
    (∀ (st : PState) (ln n2 : Nat) (line mlab mtxt l2 : List Char),
      matchMain line = some (mlab, mtxt) → l2.isEmpty = false → matchMain l2 = none →
      matchSub l2 = none →
      (step (step st ln line) n2 l2).out =
        updateSect (step st ln line).out mlab (fun s => { s with text := s.text ++ '\n' :: l2 }) ∧
      (step (step st ln line) n2 l2).active = some (mlab, none)) := by
  have hact : ∀ (st : PState) (ln : Nat) (line mlab mtxt : List Char),
      matchMain line = some (mlab, mtxt) → (step st ln line).active = some (mlab, none) := by
    intro st ln line mlab mtxt hm
    cases hf : findSect st.out mlab with
    | some sec => rw [step_main_found hm hf]
    | none => rw [step_main_new hm hf]
  refine ⟨hact, ?_⟩
  intro st ln n2 line mlab mtxt l2 hm hne hm2 hs2
  rw [step_cont_main hne hm2 hs2 (hact st ln line mlab mtxt hm)]
  exact ⟨rfl, hact st ln line mlab mtxt hm⟩

/-- Witness for claim C7 at a concrete input: after `"A. x"`, the line
`"more"` extends section `"A."`. -/
theorem claim_C7_witness :
    (step (step initState 1 (("A. x").toList)) 2 (("more").toList)).out =
      updateSect (step initState 1 (("A. x").toList)).out (("A.").toList)
        (fun s => { s with text := s.text ++ '\n' :: (("more").toList) }) ∧
    (step (step initState 1 (("A. x").toList)) 2 (("more").toList)).active =
      some ((("A.").toList), none) :=
  claim_C7.2 initState 1 2 (("A. x").toList) (("A.").toList) (("x").toList) (("more").toList)
    (by decide) (by decide) (by decide) (by decide)

/-- Claim C8: an empty line is skipped entirely — the state (outline,
active pointers, warnings) is unchanged — and deleting an empty line from
the input lines changes neither the resulting outline nor the active
pointers.  (The code skips exactly the empty lines: line 38 deliberately
does not strip, and line 43 tests falsiness of the unstripped line.) -/
theorem claim_C8 :
    (∀ (st : PState) (ln : Nat), step st ln [] = st) ∧
    (∀ pre post : List (List Char),
      (runLines (pre ++ [] :: post)).out = (runLines (pre ++ post)).out ∧
      (runLines (pre ++ [] :: post)).active = (runLines (pre ++ post)).active) := by
  refine ⟨step_empty, ?_⟩
  intro pre post
  unfold runLines
  rw [runFrom_append, runFrom_append]
  show (runFrom (runFrom initState 1 pre) (1 + pre.length) ([] :: post)).out = _ ∧ _
  have h1 : runFrom (runFrom initState 1 pre) (1 + pre.length) ([] :: post) =
      runFrom (runFrom initState 1 pre) (1 + pre.length + 1) post := by
    rw [show runFrom (runFrom initState 1 pre) (1 + pre.length) ([] :: post) =
        runFrom (step (runFrom initState 1 pre) (1 + pre.length) []) (1 + pre.length + 1) post
        from rfl, step_empty]
  rw [h1]
  exact runFrom_out_active_congr rfl rfl _ _ post

/-- Claim C10: a bare label line (`"A."`, or `"A.1"` and the like, with
nothing after the label) matches neither pattern — both require at least
one whitespace character after the label — and is handled as a
continuation line: appended (with a leading newline) to the active
Subsection's text if one is active, else to the active Section's text,
else discarded with a warning recording its line number and content. -/
theorem claim_C10 :
    ∀ (c : Char) (ds : List Char), pyIsUpper c = true → (∀ d ∈ ds, pyIsDigit d = true) →
    matchMain (c :: '.' :: ds) = none ∧ matchSub (c :: '.' :: ds) = none ∧
    (∀ (st : PState) (ln : Nat) (mlab slab : List Char), st.active = some (mlab, some slab) →
      step st ln (c :: '.' :: ds) = { st with out := updateSub st.out mlab slab (c :: '.' :: ds) }) ∧
    (∀ (st : PState) (ln : Nat) (mlab : List Char), st.active = some (mlab, none) →
      step st ln (c :: '.' :: ds) = { st with out := (updateSect st.out mlab
        (fun s => { s with text := s.text ++ '\n' :: (c :: '.' :: ds) })) }) ∧
    (∀ (st : PState) (ln : Nat), st.active = none →
      step st ln (c :: '.' :: ds) = { st with warns := st.warns ++ [(ln, c :: '.' :: ds)] }) := by
  intro c ds hc hds
  have hmm : matchMain (c :: '.' :: ds) = none := by
    cases ds with
    | nil => rfl
    | cons d ds' =>
      have hd : pyIsDigit d = true := hds d (by simp)
      simp [matchMain, digit_not_space hd]
  have hms : matchSub (c :: '.' :: ds) = none := by
    rw [matchSub, if_neg]
    rw [takeWhile_all hds, dropWhile_all hds]
    cases ds with
    | nil => simp [headIsSpace]
    | cons d ds' => simp [headIsSpace]
  have hne : (c :: '.' :: ds).isEmpty = false := rfl
  refine ⟨hmm, hms, ?_, ?_, ?_⟩
  · intro st ln mlab slab ha
    exact step_cont_sub hne hmm hms ha
  · intro st ln mlab ha
    exact step_cont_main hne hmm hms ha
  · intro st ln ha
    exact step_orphan hne hmm ha

/-- Witness for claim C10 at concrete inputs: the bare labels `"A."` and
`"A.1"` match neither pattern, and `"A."` arriving with no active section
is recorded as an orphan warning. -/
theorem claim_C10_witness :
    (matchMain (('A' :: '.' :: [])) = none ∧ matchSub (('A' :: '.' :: [])) = none ∧
      matchMain (('A' :: '.' :: ['1'])) = none ∧ matchSub (('A' :: '.' :: ['1'])) = none) ∧
    step initState 1 ('A' :: '.' :: []) =
      { initState with warns := initState.warns ++ [(1, 'A' :: '.' :: [])] } :=
  ⟨⟨(claim_C10 'A' [] (by decide) (by decide)).1,
    (claim_C10 'A' [] (by decide) (by decide)).2.1,
    (claim_C10 'A' ['1'] (by decide) (by decide)).1,
    (claim_C10 'A' ['1'] (by decide) (by decide)).2.1⟩,
   (claim_C10 'A' [] (by decide) (by decide)).2.2.2.2 initState 1 rfl⟩

/-- Claim C3: subsection labels are unique within every section of every
parsed outline; a Subsection-label line whose label already exists in the
(unique) active section appends a newline and the captured remainder to
that subsection's text and makes it active, changing nothing else; and
the spec's own example input evaluates as claimed. -/
theorem claim_C3 :
    (∀ s : List Char, ∀ sec ∈ parse_text_to_structure s,
      (sec.subsections.map Subsec.number).Nodup) ∧
    (∀ (st : PState) (ln : Nat) (line : List Char) (pre post : List Sect)
       (subpre subpost : List Subsec) (mlab mtext slab t stxt : List Char)
       (osub : Option (List Char)),
      st.out = pre ++ Sect.mk mlab mtext (subpre ++ Subsec.mk slab t :: subpost) :: post →
      (∀ x ∈ pre, x.number ≠ mlab) → (∀ x ∈ post, x.number ≠ mlab) →
      (∀ y ∈ subpre, y.number ≠ slab) → (∀ y ∈ subpost, y.number ≠ slab) →
      st.active = some (mlab, osub) →
      matchSub line = some (slab, stxt) →
      (step st ln line).out =
        pre ++ Sect.mk mlab mtext (subpre ++ Subsec.mk slab (t ++ '\n' :: stxt) :: subpost) :: post ∧
      (step st ln line).active = some (mlab, some slab)) ∧
    parse_text_to_structure (("A. Greeting\nA.1 Opening\nGood morning.\nA.1 Closing\nThanks.").toList)
      = [Sect.mk (("A.").toList) (("Greeting").toList)
          [Subsec.mk (("A.1").toList) (("Opening\nGood morning.\nClosing\nThanks.").toList)]] := by
  refine ⟨fun s => (runLines_inv _).2, ?_, by decide⟩
  intro st ln line pre post subpre subpost mlab mtext slab t stxt osub hout hpre hpost
    hsubpre hsubpost ha hs
  have hf : findSect st.out mlab =
      some (Sect.mk mlab mtext (subpre ++ Subsec.mk slab t :: subpost)) := by
    rw [hout]
    exact findSect_decomp hpre rfl
  have hex : ((Sect.mk mlab mtext (subpre ++ Subsec.mk slab t :: subpost)).subsections.find?
        (fun sb => sb.number == slab)).isSome = true := by
    show ((subpre ++ Subsec.mk slab t :: subpost).find?
        (fun sb => sb.number == slab)).isSome = true
    rw [find?_append_fresh (fun y hy => by simpa using hsubpre y hy) (by simp)]
    rfl
  rw [step_sub_found hs ha hf hex]
  refine ⟨?_, rfl⟩
  show updateSub st.out mlab slab stxt = _
  rw [hout, updateSub, updateSect_decomp hpre hpost rfl]
  congr 1
  show Sect.mk mlab mtext ((subpre ++ Subsec.mk slab t :: subpost).map
      (fun sb => if sb.number = slab then { sb with text := sb.text ++ '\n' :: stxt } else sb))
      :: post = _
  rw [map_sub_decomp hsubpre hsubpost rfl]

/-- Witness for claim C3 at a concrete input: a second `"A.1"` line under
an active section `"A."` extends the existing subsection's text with a
newline and the new remainder. -/
theorem claim_C3_witness :
    (step (PState.mk [Sect.mk (("A.").toList) (("G").toList)
          [Subsec.mk (("A.1").toList) (("O").toList)]]
        (some (("A.").toList, some (("A.1").toList))) [])
        4 (("A.1 C").toList)).out =
      [] ++ Sect.mk (("A.").toList) (("G").toList)
        ([] ++ Subsec.mk (("A.1").toList) ((("O").toList) ++ '\n' :: (("C").toList)) :: []) :: [] ∧
    (step (PState.mk [Sect.mk (("A.").toList) (("G").toList)
          [Subsec.mk (("A.1").toList) (("O").toList)]]
        (some (("A.").toList, some (("A.1").toList))) [])
        4 (("A.1 C").toList)).active = some (("A.").toList, some (("A.1").toList)) :=
  claim_C3.2.1 _ 4 (("A.1 C").toList) [] [] [] [] (("A.").toList) (("G").toList)
    (("A.1").toList) (("O").toList) (("C").toList) (some (("A.1").toList))
    (by decide) (by decide) (by decide) (by decide) (by decide) (by decide) (by decide)

/-- Claim C4: a Subsection-label line arriving before any Section-label
line has been seen (so the outline is empty and nothing is active) adds
no node: the outline stays empty, nothing becomes active, the line is
recorded as an orphan warning with its line number and content, and the
outline of the whole run is the same as if the line were not there. -/
theorem claim_C4 :
    ∀ (pre : List (List Char)) (n : Nat) (line slab stxt : List Char) (post : List (List Char)),
    (∀ p ∈ pre, matchMain p = none) → matchSub line = some (slab, stxt) →
    (runLines pre).out = [] ∧ (runLines pre).active = none ∧
    step (runLines pre) n line =
      { runLines pre with warns := (runLines pre).warns ++ [(n, line)] } ∧
    (runLines (pre ++ line :: post)).out = (runLines (pre ++ post)).out := by
  intro pre n line slab stxt post hml hs
  obtain ⟨hout, hact⟩ := @runFrom_no_main pre initState 1 hml rfl
  have hne := matchSub_some_ne_nil hs
  have hm : matchMain line = none := matchMain_none_of_matchSub hs
  refine ⟨hout, hact, step_orphan hne hm hact, ?_⟩
  unfold runLines
  rw [runFrom_append, runFrom_append]
  rw [show runFrom (runFrom initState 1 pre) (1 + pre.length) (line :: post) =
      runFrom (step (runFrom initState 1 pre) (1 + pre.length) line) (1 + pre.length + 1) post
      from rfl]
  rw [step_orphan hne hm hact]
  exact (@runFrom_out_active_congr
    (PState.mk (runFrom initState 1 pre).out (runFrom initState 1 pre).active
      ((runFrom initState 1 pre).warns ++ [(1 + pre.length, line)]))
    (runFrom initState 1 pre) rfl rfl (1 + pre.length + 1) (1 + pre.length) post).1

/-- Witness for claim C4 at a concrete input: `"A.1 x"` as the very first
line is dropped with a warning and contributes nothing to the outline. -/
theorem claim_C4_witness :
    (runLines []).out = [] ∧ (runLines []).active = none ∧
    step (runLines []) 1 (("A.1 x").toList) =
      { runLines [] with warns := (runLines []).warns ++ [(1, ("A.1 x").toList)] } ∧
    (runLines ([] ++ ("A.1 x").toList :: [("A. ok").toList])).out =
      (runLines ([] ++ [("A. ok").toList])).out :=
  claim_C4 [] 1 (("A.1 x").toList) (("A.1").toList) (("x").toList) [("A. ok").toList]
    (by decide) (by decide)

/-- Claim C6: the Outline Builder is a total function (every branch of the
loop body is defined for every input, so no input raises an error), and a
continuation line arriving while nothing is active is discarded after
recording a diagnostic that carries its 1-based line number and its
content, with all following lines processed exactly as before. -/
theorem claim_C6 :
    (∀ (st : PState) (ln : Nat) (line : List Char),
      st.active = none → line.isEmpty = false → matchMain line = none →
      step st ln line = { st with warns := st.warns ++ [(ln, line)] }) ∧
    (∀ (st : PState) (ln n2 : Nat) (line : List Char) (post : List (List Char)),
      st.active = none → line.isEmpty = false → matchMain line = none →
      (runFrom (step st ln line) n2 post).out = (runFrom st n2 post).out ∧
      (runFrom (step st ln line) n2 post).active = (runFrom st n2 post).active) ∧
    (∀ (pre : List (List Char)) (line : List Char) (post : List (List Char)),
      (runLines pre).active = none → line.isEmpty = false → matchMain line = none →
      (pre.length + 1, line) ∈ (runLines (pre ++ line :: post)).warns) := by
  refine ⟨fun st ln line ha hne hm => step_orphan hne hm ha, ?_, ?_⟩
  · intro st ln n2 line post ha hne hm
    rw [step_orphan hne hm ha]
    exact @runFrom_out_active_congr
      (PState.mk st.out st.active (st.warns ++ [(ln, line)])) st rfl rfl n2 n2 post
  · intro pre line post ha hne hm
    unfold runLines at ha ⊢
    rw [runFrom_append]
    rw [show runFrom (runFrom initState 1 pre) (1 + pre.length) (line :: post) =
        runFrom (step (runFrom initState 1 pre) (1 + pre.length) line) (1 + pre.length + 1) post
        from rfl]
    rw [step_orphan hne hm ha]
    obtain ⟨w, hw⟩ := runFrom_warns_mono
      { out := (runFrom initState 1 pre).out, active := (runFrom initState 1 pre).active,
        warns := (runFrom initState 1 pre).warns ++ [(1 + pre.length, line)] }
      (1 + pre.length + 1) post
    rw [hw]
    rw [show pre.length + 1 = 1 + pre.length from Nat.add_comm _ _]
    simp

/-- Witness for claim C6 at a concrete input: the orphan line `"stray"`
at position 1 is recorded and does not disturb the processing of the
following line. -/
theorem claim_C6_witness :
    (step initState 1 (("stray").toList) =
      { initState with warns := initState.warns ++ [(1, ("stray").toList)] }) ∧
    ((runFrom (step initState 1 (("stray").toList)) 2 [("A. ok").toList]).out =
      (runFrom initState 2 [("A. ok").toList]).out ∧
     (runFrom (step initState 1 (("stray").toList)) 2 [("A. ok").toList]).active =
      (runFrom initState 2 [("A. ok").toList]).active) ∧
    (0 + 1, ("stray").toList) ∈ (runLines ([] ++ ("stray").toList :: [("A. ok").toList])).warns :=
  ⟨claim_C6.1 initState 1 (("stray").toList) rfl (by decide) (by decide),
   claim_C6.2.1 initState 1 2 (("stray").toList) [("A. ok").toList] rfl (by decide) (by decide),
   by
    have := claim_C6.2.2 [] (("stray").toList) [("A. ok").toList] rfl (by decide) (by decide)
    simpa using this⟩

/-! ## Claim C1: the Score trailer -/

theorem scoreStrip_first {s : List Char} {i : Nat}
    (hi : scorePat.isPrefixOf (s.drop i) = true)
    (hmin : ∀ j < i, scorePat.isPrefixOf (s.drop j) = false) :
    scoreStrip s = s.take i := by
  induction s generalizing i with
  | nil =>
    rw [List.drop_nil] at hi
    exact absurd hi (by decide)
  | cons c rest ih =>
    cases i with
    | zero =>
      rw [List.drop_zero] at hi
      simp [scoreStrip, hi]
    | succ k =>
      have h0 : scorePat.isPrefixOf (c :: rest) = false := by
        have := hmin 0 (Nat.succ_pos k)
        simpa using this
      rw [scoreStrip, if_neg (by simp [h0]), List.take_succ_cons]
      congr 1
      exact ih (by simpa using hi) (fun j hj => by simpa using hmin (j + 1) (by omega))

theorem scoreStrip_id {s : List Char} (h : ∀ j, scorePat.isPrefixOf (s.drop j) = false) :
    scoreStrip s = s := by
  induction s with
  | nil => rfl
  | cons c rest ih =>
    have h0 : scorePat.isPrefixOf (c :: rest) = false := by simpa using h 0
    rw [scoreStrip, if_neg (by simp [h0])]
    congr 1
    exact ih (fun j => by simpa using h (j + 1))

theorem isPrefixOf_of_take {pat t : List Char} {m : Nat}
    (h : pat.isPrefixOf (t.take m) = true) : pat.isPrefixOf t = true := by
  induction pat generalizing t m with
  | nil => cases t <;> rfl
  | cons a pa ih =>
    cases t with
    | nil =>
      rw [List.take_nil] at h
      exact absurd h (by simp [List.isPrefixOf])
    | cons b tb =>
      cases m with
      | zero => exact absurd h (by simp [List.isPrefixOf])
      | succ k =>
        rw [List.take_succ_cons] at h
        rw [show ((a :: pa).isPrefixOf (b :: tb.take k)) =
          (a == b && pa.isPrefixOf (tb.take k)) from rfl] at h
        rw [show ((a :: pa).isPrefixOf (b :: tb)) = (a == b && pa.isPrefixOf tb) from rfl]
        simp only [Bool.and_eq_true] at h ⊢
        exact ⟨h.1, ih h.2⟩

/-- Claim C1: everything from the first occurrence of `"Score:"` onward
is invisible to the parser — the outline of the whole input equals the
outline of the strict prefix before that occurrence, so no text drawn
from the marker onward reaches any Section or Subsection and no label
line after it produces a node; in particular `"Score: 5\nA. Intro"`
yields an empty outline. -/
theorem claim_C1 :
    (∀ (s : List Char) (i : Nat),
      scorePat.isPrefixOf (s.drop i) = true →
      (∀ j < i, scorePat.isPrefixOf (s.drop j) = false) →
      parse_text_to_structure s = parse_text_to_structure (s.take i)) ∧
    parse_text_to_structure (("Score: 5\nA. Intro").toList) = [] := by
  refine ⟨?_, by decide⟩
  intro s i hi hmin
  have h1 : scoreStrip s = s.take i := scoreStrip_first hi hmin
  have h2 : scoreStrip (s.take i) = s.take i := by
    apply scoreStrip_id
    intro j
    by_cases hj : j < i
    · by_contra hcon
      rw [Bool.not_eq_false] at hcon
      rw [List.drop_take] at hcon
      exact absurd (isPrefixOf_of_take hcon) (by simp [hmin j hj])
    · have hnil : (s.take i).drop j = [] :=
        List.drop_eq_nil_of_le (le_trans (s.length_take_le i) (by omega))
      rw [hnil]
      decide
  unfold parse_text_to_structure normalize
  rw [h1, h2]

/-- Witness for claim C1 at a concrete input: the first `"Score:"` of
`"A. okScore: 5"` starts at index 5, and the parse equals that of the
five-character prefix `"A. ok"`. -/
theorem claim_C1_witness :
    parse_text_to_structure (("A. okScore: 5").toList) =
      parse_text_to_structure ((("A. okScore: 5").toList).take 5) :=
  claim_C1.1 (("A. okScore: 5").toList) 5 (by decide) (by decide)

/-! ## Claim C9: the sentence-callout rewrite -/

theorem length_dropWhile_le (p : Char → Bool) (l : List Char) :
    (l.dropWhile p).length ≤ l.length := by
  induction l with
  | nil => simp
  | cons a t ih =>
    rw [List.dropWhile_cons]
    by_cases h : p a = true
    · simp only [h, if_true]
      exact le_trans ih (Nat.le_succ _)
    · simp [h]

theorem isPrefixOf_append_self (pat x : List Char) : pat.isPrefixOf (pat ++ x) = true := by
  induction pat with
  | nil => cases x <;> rfl
  | cons a pa ih =>
    show ((a == a) && pa.isPrefixOf (pa ++ x)) = true
    simp [ih]

theorem eq_append_drop_of_isPrefixOf {pat y : List Char} (h : pat.isPrefixOf y = true) :
    y = pat ++ y.drop pat.length := by
  induction pat generalizing y with
  | nil => simp
  | cons a pa ih =>
    cases y with
    | nil => exact absurd h (by simp [List.isPrefixOf])
    | cons b yb =>
      rw [show ((a :: pa).isPrefixOf (b :: yb)) = (a == b && pa.isPrefixOf yb) from rfl] at h
      simp only [Bool.and_eq_true, beq_iff_eq] at h
      rw [List.length_cons, List.drop_succ_cons, List.cons_append, ← h.1]
      exact congrArg (a :: ·) (ih h.2)

theorem trySentence_decomp {w ds v : List Char} (hw : w.all pyIsSpace = true)
    (hne : ds ≠ []) (hdig : ds.all pyIsDigit = true) :
    trySentence (sentencePat ++ w ++ ds ++ ':' :: v) = some (v.dropWhile pyIsSpace) := by
  have hassoc : sentencePat ++ w ++ ds ++ ':' :: v =
      sentencePat ++ (w ++ (ds ++ ':' :: v)) := by
    simp [List.append_assoc]
  rw [hassoc]
  have hpre : sentencePat.isPrefixOf (sentencePat ++ (w ++ (ds ++ ':' :: v))) = true :=
    isPrefixOf_append_self _ _
  have h8 : (sentencePat ++ (w ++ (ds ++ ':' :: v))).drop 8 = w ++ (ds ++ ':' :: v) := by
    rw [show (8 : Nat) = sentencePat.length from rfl, List.drop_left]
  have hdw : (w ++ (ds ++ ':' :: v)).dropWhile pyIsSpace = ds ++ ':' :: v := by
    rw [dropWhile_all_append (fun x hx => List.all_eq_true.mp hw x hx)]
    cases ds with
    | nil => exact absurd rfl hne
    | cons d ds' =>
      rw [List.cons_append, List.dropWhile_cons]
      simp [digit_not_space (List.all_eq_true.mp hdig d (by simp))]
  have htw : (ds ++ ':' :: v).takeWhile pyIsDigit = ds := by
    rw [takeWhile_all_append (fun x hx => List.all_eq_true.mp hdig x hx)]
    simp [List.takeWhile_cons, show pyIsDigit ':' = false from by decide]
  have hdw2 : (ds ++ ':' :: v).dropWhile pyIsDigit = ':' :: v := by
    rw [dropWhile_all_append (fun x hx => List.all_eq_true.mp hdig x hx)]
    simp [List.dropWhile_cons, show pyIsDigit ':' = false from by decide]
  have hdse : ds.isEmpty = false := by
    cases ds with
    | nil => exact absurd rfl hne
    | cons _ _ => rfl
  simp only [trySentence, hpre, if_true, h8, hdw, hdw2, htw, hdse]
  simp

theorem trySentence_some_decomp {y r : List Char} (h : trySentence y = some r) :
    ∃ w ds v, y = sentencePat ++ w ++ ds ++ ':' :: v ∧ w.all pyIsSpace = true ∧ ds ≠ [] ∧
      ds.all pyIsDigit = true ∧ r = v.dropWhile pyIsSpace := by
  by_cases hpre : sentencePat.isPrefixOf y = true
  · have hy : y = sentencePat ++ y.drop 8 := eq_append_drop_of_isPrefixOf hpre
    cases hm : (((y.drop 8).dropWhile pyIsSpace).dropWhile pyIsDigit) with
    | nil => simp [trySentence, hpre, hm] at h
    | cons x r2 =>
      by_cases hguard : (x = ':' &&
          !(((y.drop 8).dropWhile pyIsSpace).takeWhile pyIsDigit).isEmpty) = true
      · simp only [trySentence, hpre, if_true, hm, hguard, Option.some_inj] at h
        simp only [Bool.and_eq_true, decide_eq_true_eq, Bool.not_eq_true',
          List.isEmpty_eq_false] at hguard
        obtain ⟨hx, hdse⟩ := hguard
        subst hx
        refine ⟨(y.drop 8).takeWhile pyIsSpace, ((y.drop 8).dropWhile pyIsSpace).takeWhile pyIsDigit,
          r2, ?_, ?_, hdse, ?_, h.symm⟩
        · have hnest : y = sentencePat ++ ((y.drop 8).takeWhile pyIsSpace ++
              (((y.drop 8).dropWhile pyIsSpace).takeWhile pyIsDigit ++ ':' :: r2)) := by
            conv_lhs => rw [hy]
            congr 1
            conv_lhs => rw [← List.takeWhile_append_dropWhile pyIsSpace (y.drop 8)]
            congr 1
            conv_lhs => rw [← List.takeWhile_append_dropWhile pyIsDigit
              ((y.drop 8).dropWhile pyIsSpace)]
            rw [hm]
          rw [List.append_assoc, List.append_assoc]
          exact hnest
        · exact List.all_eq_true.mpr (fun x hx => List.mem_takeWhile_imp hx)
        · exact List.all_eq_true.mpr (fun x hx => List.mem_takeWhile_imp hx)
      · rw [Bool.not_eq_true] at hguard
        simp only [trySentence, hpre, if_true, hm] at h
        rw [if_neg (by simp [hguard])] at h
        exact absurd h (by simp)
  · rw [Bool.not_eq_true] at hpre
    simp [trySentence, hpre] at h

theorem length_le_of_isPrefixOf {pat y : List Char} (h : pat.isPrefixOf y = true) :
    pat.length ≤ y.length := by
  rw [eq_append_drop_of_isPrefixOf h, List.length_append]
  omega

theorem trySentence_some_length {s r : List Char} (h : trySentence s = some r) :
    r.length < s.length := by
  obtain ⟨w, ds, v, rfl, _, _, _, rfl⟩ := trySentence_some_decomp h
  have := length_dropWhile_le pyIsSpace v
  simp only [List.length_append, List.length_cons]
  omega

theorem trySentence_cons_ne_s {c : Char} {y : List Char} (hc : c ≠ 'S') :
    trySentence (c :: y) = none := by
  have hbeq : ('S' == c) = false := beq_eq_false_iff_ne.mpr (Ne.symm hc)
  have hpre : sentencePat.isPrefixOf (c :: y) = false := by
    rw [show sentencePat = 'S' :: ("entence").toList from rfl]
    show (('S' == c) && (("entence").toList).isPrefixOf y) = false
    simp [hbeq]
  simp [trySentence, hpre]

theorem subSentenceF_fuel {f g : Nat} {s : List Char} (hf : s.length ≤ f) (hg : s.length ≤ g) :
    subSentenceF f s = subSentenceF g s := by
  induction f generalizing g s with
  | zero =>
    have hs : s = [] := List.length_eq_zero.mp (Nat.le_zero.mp hf)
    subst hs
    cases g <;> rfl
  | succ f ih =>
    cases s with
    | nil => cases g <;> rfl
    | cons c rest =>
      cases g with
      | zero => simp at hg
      | succ g' =>
        show (match trySentence (c :: rest) with
          | some r => bullet ++ subSentenceF f r
          | none => c :: subSentenceF f rest) = (match trySentence (c :: rest) with
          | some r => bullet ++ subSentenceF g' r
          | none => c :: subSentenceF g' rest)
        cases htry : trySentence (c :: rest) with
        | some r =>
          have hlen := trySentence_some_length htry
          simp only [List.length_cons] at hf hg hlen
          have := ih (g := g') (s := r) (by omega) (by omega)
          simp [this]
        | none =>
          simp only [List.length_cons] at hf hg
          have := ih (g := g') (s := rest) (by omega) (by omega)
          simp [this]

theorem subSentence_head_match {s r : List Char} (h : trySentence s = some r) :
    subSentence s = bullet ++ subSentence r := by
  cases s with
  | nil =>
    rw [show trySentence ([] : List Char) = none from by decide] at h
    exact Option.noConfusion h
  | cons c rest =>
    show subSentenceF (rest.length + 1) (c :: rest) = _
    rw [show subSentenceF (rest.length + 1) (c :: rest) = (match trySentence (c :: rest) with
      | some r => bullet ++ subSentenceF rest.length r
      | none => c :: subSentenceF rest.length rest) from rfl, h]
    have hlen := trySentence_some_length h
    simp only [List.length_cons] at hlen
    exact congrArg (bullet ++ ·) (subSentenceF_fuel (by omega) le_rfl)

theorem subSentenceF_take_amp {f : Nat} {s : List Char} (hf : s.length ≤ f) (k : Nat)
    (h : '&' ∉ (subSentenceF f s).take k) : (subSentenceF f s).take k = s.take k := by
  induction f generalizing s k with
  | zero => rfl
  | succ f ih =>
    cases s with
    | nil => rfl
    | cons c rest =>
      cases htry : trySentence (c :: rest) with
      | some r =>
        have hout : subSentenceF (f + 1) (c :: rest) = bullet ++ subSentenceF f r := by
          rw [show subSentenceF (f + 1) (c :: rest) = (match trySentence (c :: rest) with
            | some r => bullet ++ subSentenceF f r
            | none => c :: subSentenceF f rest) from rfl, htry]
        rw [hout] at h ⊢
        cases k with
        | zero => rfl
        | succ k' =>
          exfalso
          apply h
          rw [show bullet ++ subSentenceF f r =
            '&' :: (("nbsp;&nbsp;&nbsp;&nbsp;&nbsp;-&nbsp;").toList ++ subSentenceF f r) from rfl,
            List.take_succ_cons]
          exact List.mem_cons_self _ _
      | none =>
        have hout : subSentenceF (f + 1) (c :: rest) = c :: subSentenceF f rest := by
          rw [show subSentenceF (f + 1) (c :: rest) = (match trySentence (c :: rest) with
            | some r => bullet ++ subSentenceF f r
            | none => c :: subSentenceF f rest) from rfl, htry]
        rw [hout] at h ⊢
        cases k with
        | zero => rfl
        | succ k' =>
          rw [List.take_succ_cons] at h ⊢
          have hnotin : '&' ∉ (subSentenceF f rest).take k' := by
            intro hmem
            exact h (List.mem_cons_of_mem c hmem)
          simp only [List.length_cons] at hf
          rw [ih (by omega) k' hnotin, List.take_succ_cons]

theorem trySome_of_output_decomp {f : Nat} {rest : List Char} (hf : rest.length ≤ f)
    {w ds v : List Char} (hw : w.all pyIsSpace = true) (hne : ds ≠ [])
    (hdig : ds.all pyIsDigit = true)
    (hout : subSentenceF f rest = ("entence").toList ++ w ++ ds ++ ':' :: v) :
    ∃ r, trySentence ('S' :: rest) = some r := by
  have hP : subSentenceF f rest = (("entence").toList ++ w ++ ds ++ [':']) ++ v := by
    rw [hout]
    simp [List.append_assoc]
  have hamp : '&' ∉ (subSentenceF f rest).take (("entence").toList ++ w ++ ds ++ [':']).length := by
    rw [hP, List.take_left]
    intro hmem
    simp only [List.append_assoc, List.mem_append] at hmem
    rcases hmem with h1 | h2 | h3 | h4
    · exact absurd h1 (by decide)
    · have := List.all_eq_true.mp hw '&' h2
      exact absurd this (by decide)
    · have := List.all_eq_true.mp hdig '&' h3
      exact absurd this (by decide)
    · exact absurd h4 (by decide)
  have hrest : rest.take (("entence").toList ++ w ++ ds ++ [':']).length =
      ("entence").toList ++ w ++ ds ++ [':'] := by
    rw [← subSentenceF_take_amp hf _ hamp, hP, List.take_left]
  obtain ⟨u, hu⟩ : ∃ u, rest = (("entence").toList ++ w ++ ds ++ [':']) ++ u :=
    ⟨rest.drop (("entence").toList ++ w ++ ds ++ [':']).length, by
      conv_lhs => rw [← List.take_append_drop (("entence").toList ++ w ++ ds ++ [':']).length rest]
      rw [hrest]⟩
  have hkey : 'S' :: rest = sentencePat ++ w ++ ds ++ ':' :: u := by
    rw [hu, show sentencePat = 'S' :: ("entence").toList from rfl]
    simp [List.append_assoc]
  exact ⟨u.dropWhile pyIsSpace, by rw [hkey]; exact trySentence_decomp hw hne hdig⟩

theorem noSent_append_no_s {pre x : List Char} (hpre : ∀ ch ∈ pre, ch ≠ 'S')
    (hx : NoSent x) : NoSent (pre ++ x) := by
  induction pre with
  | nil => exact hx
  | cons a pre' ih =>
    exact ⟨trySentence_cons_ne_s (hpre a (by simp)),
      ih (fun ch hch => hpre ch (by simp [hch]))⟩

theorem noSent_subSentenceF {f : Nat} {s : List Char} (hf : s.length ≤ f) :
    NoSent (subSentenceF f s) := by
  induction f generalizing s with
  | zero =>
    have hs : s = [] := List.length_eq_zero.mp (Nat.le_zero.mp hf)
    subst hs
    trivial
  | succ f ih =>
    cases s with
    | nil => trivial
    | cons c rest =>
      simp only [List.length_cons] at hf
      cases htry : trySentence (c :: rest) with
      | some r =>
        have hout : subSentenceF (f + 1) (c :: rest) = bullet ++ subSentenceF f r := by
          rw [show subSentenceF (f + 1) (c :: rest) = (match trySentence (c :: rest) with
            | some r => bullet ++ subSentenceF f r
            | none => c :: subSentenceF f rest) from rfl, htry]
        rw [hout]
        have hlen := trySentence_some_length htry
        simp only [List.length_cons] at hlen
        exact noSent_append_no_s (by decide) (ih (by omega))
      | none =>
        have hout : subSentenceF (f + 1) (c :: rest) = c :: subSentenceF f rest := by
          rw [show subSentenceF (f + 1) (c :: rest) = (match trySentence (c :: rest) with
            | some r => bullet ++ subSentenceF f r
            | none => c :: subSentenceF f rest) from rfl, htry]
        rw [hout]
        show trySentence (c :: subSentenceF f rest) = none ∧ NoSent (subSentenceF f rest)
        refine ⟨?_, ih (by omega)⟩
        by_cases hc : c = 'S'
        · subst hc
          cases htry2 : trySentence ('S' :: subSentenceF f rest) with
          | none => rfl
          | some r2 =>
            exfalso
            obtain ⟨w, ds, v, heq, hw, hne, hdig, _⟩ := trySentence_some_decomp htry2
            rw [show sentencePat = 'S' :: ("entence").toList from rfl] at heq
            simp only [List.cons_append, List.cons.injEq, eq_self_iff_true, true_and] at heq
            obtain ⟨r', hr'⟩ := @trySome_of_output_decomp f rest (by omega) w ds v hw hne hdig heq
            rw [htry] at hr'
            exact Option.noConfusion hr'
        · exact trySentence_cons_ne_s hc

theorem noSent_subSentence (s : List Char) : NoSent (subSentence s) :=
  noSent_subSentenceF le_rfl

theorem noSent_no_decomp {x : List Char} (hx : NoSent x) :
    ∀ t w ds v : List Char, w.all pyIsSpace = true → ds ≠ [] → ds.all pyIsDigit = true →
      x ≠ t ++ sentencePat ++ w ++ ds ++ ':' :: v := by
  intro t
  induction t generalizing x with
  | nil =>
    intro w ds v hw hne hdig heq
    simp only [List.nil_append] at heq
    cases x with
    | nil =>
      have : (0 : Nat) = (sentencePat ++ w ++ ds ++ ':' :: v).length := congrArg List.length heq
      simp [sentencePat, List.length_append] at this
    | cons a x' =>
      have h1 : trySentence (a :: x') = none := hx.1
      rw [heq, trySentence_decomp hw hne hdig] at h1
      exact Option.noConfusion h1
  | cons b t' ih =>
    intro w ds v hw hne hdig heq
    cases x with
    | nil => simp at heq
    | cons a x' =>
      simp only [List.cons_append, List.cons.injEq] at heq
      exact ih hx.2 w ds v hw hne hdig heq.2

/-- Counterexample to claim C9 as stated: the string `"Sentence 3 :"` is
an occurrence of "Sentence", whitespace, one or more digits, whitespace,
and a colon, yet the normalizer's sentence rewrite leaves it unchanged —
the numeric label and the colon are not dropped — because the code's
pattern `Sentence\s*\d+:\s*` admits no whitespace between the digits and
the colon.  The claim's own pattern (`subSentenceSpec`, modelled from the
spec's words) would rewrite it to the bullet prefix. -/
theorem claim_C9_counterexample :
    subSentence (("Sentence 3 :").toList) = ("Sentence 3 :").toList ∧
    subSentenceSpec (("Sentence 3 :").toList) = bullet := by
  constructor <;> decide

/-- Claim C9 (amended): the code's pattern is `Sentence\s*\d+:\s*` —
optional whitespace between "Sentence" and the digits, no whitespace
between the digits and the colon, and any whitespace after the colon is
consumed as well.  Every such occurrence is rewritten to the
five-placeholder bullet prefix with the numeric label, the colon and the
trailing whitespace dropped: rewriting an occurrence yields the bullet
prefix followed by the rest, and no occurrence of the pattern survives in
the rewrite's output; the example line "Sentence 3: ..." becomes bullet
continuation content attached to the active section, not a labeled node. -/
theorem claim_C9_amended :
    (∀ w ds v : List Char, w.all pyIsSpace = true → ds ≠ [] → ds.all pyIsDigit = true →
      subSentence (sentencePat ++ w ++ ds ++ ':' :: v) =
        bullet ++ subSentence (v.dropWhile pyIsSpace)) ∧
    (∀ s t w ds v : List Char, w.all pyIsSpace = true → ds ≠ [] → ds.all pyIsDigit = true →
      subSentence s ≠ t ++ sentencePat ++ w ++ ds ++ ':' :: v) ∧
    parse_text_to_structure (("A. Intro\nSentence 3: the customer was satisfied").toList) =
      [Sect.mk (("A.").toList)
        (("Intro\n&nbsp;&nbsp;&nbsp;&nbsp;&nbsp;-&nbsp;the customer was satisfied").toList) []] := by
  refine ⟨?_, ?_, by decide⟩
  · intro w ds v hw hne hdig
    exact subSentence_head_match (trySentence_decomp hw hne hdig)
  · intro s t w ds v hw hne hdig
    exact noSent_no_decomp (noSent_subSentence s) t w ds v hw hne hdig

/-- Witness for claim C9 (amended) at a concrete input: `"Sentence 3: x"`
is rewritten to the bullet prefix followed by `"x"`, and no occurrence
survives in the rewrite of `"Sentence 3: x"`. -/
theorem claim_C9_amended_witness :
    (subSentence (sentencePat ++ [' '] ++ ['3'] ++ ':' :: ((" x").toList)) =
      bullet ++ subSentence (((" x").toList).dropWhile pyIsSpace)) ∧
    subSentence (("Sentence 3: x").toList) ≠
      [] ++ sentencePat ++ [' '] ++ ['3'] ++ ':' :: ((" x").toList) :=
  ⟨claim_C9_amended.1 [' '] ['3'] ((" x").toList) (by decide) (by decide) (by decide),
   claim_C9_amended.2.1 (("Sentence 3: x").toList) [] [' '] ['3'] ((" x").toList)
     (by decide) (by decide) (by decide)⟩

/-! ## Claim C5: round-tripping a re-serialized outline.
First, the line-splitting and joining machinery. -/

theorem splitNlGo_shape (t : List Char) : ∀ acc, ∃ p ps, splitNlGo acc t = p :: ps := by
  induction t with
  | nil => exact fun acc => ⟨acc.reverse, [], rfl⟩
  | cons c rest ih =>
    intro acc
    by_cases hc : c = '\n'
    · subst hc
      exact ⟨acc.reverse, splitNlGo [] rest, by simp [splitNlGo]⟩
    · obtain ⟨p, ps, hps⟩ := ih (c :: acc)
      exact ⟨p, ps, by simp [splitNlGo, hc, hps]⟩

theorem splitNl_shape (t : List Char) : ∃ p ps, splitNl t = p :: ps :=
  splitNlGo_shape t []

theorem joinNl_splitNlGo (t : List Char) : ∀ acc, joinNl (splitNlGo acc t) = acc.reverse ++ t := by
  induction t with
  | nil => intro acc; simp [splitNlGo, joinNl]
  | cons c rest ih =>
    intro acc
    by_cases hc : c = '\n'
    · subst hc
      rw [show splitNlGo acc ('\n' :: rest) = acc.reverse :: splitNlGo [] rest from by
        simp [splitNlGo]]
      obtain ⟨p, ps, hps⟩ := splitNlGo_shape rest []
      rw [hps, show joinNl (acc.reverse :: p :: ps) = acc.reverse ++ '\n' :: joinNl (p :: ps)
        from rfl, ← hps, ih []]
      simp
    · rw [show splitNlGo acc (c :: rest) = splitNlGo (c :: acc) rest from by
        simp [splitNlGo, hc], ih (c :: acc)]
      simp

theorem joinNl_splitNl (t : List Char) : joinNl (splitNl t) = t := by
  simpa using joinNl_splitNlGo t []

theorem joinNl_flat (p : List Char) (ps : List (List Char)) :
    joinNl (p :: ps) = p ++ ps.flatMap (fun q => '\n' :: q) := by
  induction ps generalizing p with
  | nil => simp [joinNl]
  | cons q ps ih =>
    rw [show joinNl (p :: q :: ps) = p ++ '\n' :: joinNl (q :: ps) from rfl, ih q,
      List.flatMap_cons]
    simp

theorem splitlinesGo_nl (acc rest : List Char) :
    splitlinesGo acc ('\n' :: rest) = acc.reverse :: splitlinesGo [] rest := by
  rw [splitlinesGo.eq_def]
  simp [pyIsLineBreak]

theorem splitlinesGo_other {c : Char} (hc : pyIsLineBreak c = false) (acc rest : List Char) :
    splitlinesGo acc (c :: rest) = splitlinesGo (c :: acc) rest := by
  rw [splitlinesGo.eq_def]
  split
  · simp_all
  · rename_i h
    injection h with h1 h2
    subst h1
    simp [pyIsLineBreak] at hc
  · rename_i h1 h2
    injection h2 with h3 h4
    subst h3
    subst h4
    simp [hc]

theorem splitlinesGo_copy {l : List Char} (hl : ∀ c ∈ l, pyIsLineBreak c = false)
    (acc r : List Char) : splitlinesGo acc (l ++ r) = splitlinesGo (l.reverse ++ acc) r := by
  induction l generalizing acc with
  | nil => simp
  | cons a l' ih =>
    rw [List.cons_append, splitlinesGo_other (hl a (by simp)) acc (l' ++ r),
      ih (fun c hc => hl c (by simp [hc])) (a :: acc)]
    simp

theorem pySplitlines_joinNl (lines : List (List Char))
    (h : ∀ l ∈ lines, l ≠ [] ∧ ∀ c ∈ l, pyIsLineBreak c = false) :
    pySplitlines (joinNl lines) = lines := by
  induction lines with
  | nil => rfl
  | cons l rest ih =>
    obtain ⟨hne, hnb⟩ := h l (by simp)
    cases rest with
    | nil =>
      show splitlinesGo [] (joinNl [l]) = [l]
      rw [show joinNl [l] = l from rfl, show l = l ++ [] from by simp,
        splitlinesGo_copy hnb [] []]
      rw [splitlinesGo.eq_def]
      have : (l.reverse ++ []).isEmpty = false := by
        cases l with
        | nil => exact absurd rfl hne
        | cons a l' => simp
      simp [this, hne]
    | cons l2 rest2 =>
      show splitlinesGo [] (joinNl (l :: l2 :: rest2)) = l :: l2 :: rest2
      rw [show joinNl (l :: l2 :: rest2) = l ++ '\n' :: joinNl (l2 :: rest2) from rfl,
        splitlinesGo_copy hnb [] ('\n' :: joinNl (l2 :: rest2)), splitlinesGo_nl]
      have hrev : (l.reverse ++ ([] : List Char)).reverse = l := by simp
      rw [hrev]
      exact congrArg (l :: ·) (ih (fun x hx => h x (by simp [hx])))

theorem run_cont_pieces_main (ps : List (List Char)) :
    ∀ (done : List Sect) (lab t : List Char) (subs : List Subsec)
      (w : List (Nat × List Char)) (n : Nat),
    (∀ q ∈ ps, pieceTailOk q = true) →
    (∀ x ∈ done, x.number ≠ lab) →
    runFrom (PState.mk (done ++ [Sect.mk lab t subs]) (some (lab, none)) w) n ps =
      PState.mk (done ++ [Sect.mk lab (t ++ ps.flatMap (fun q => '\n' :: q)) subs])
        (some (lab, none)) w := by
  induction ps with
  | nil =>
    intro done lab t subs w n _ _
    simp [runFrom]
  | cons q ps ih =>
    intro done lab t subs w n hps hdone
    have hq := hps q (by simp)
    simp only [pieceTailOk, Bool.and_eq_true, Bool.not_eq_true',
      Option.isNone_iff_eq_none] at hq
    show runFrom (step (PState.mk (done ++ [Sect.mk lab t subs]) (some (lab, none)) w) n q)
      (n + 1) ps = _
    rw [step_cont_main hq.1.1.1 hq.1.1.2 hq.1.2 rfl]
    have hst : ({ PState.mk (done ++ [Sect.mk lab t subs]) (some (lab, none)) w with
        out := (updateSect (done ++ [Sect.mk lab t subs]) lab
          (fun s => { s with text := s.text ++ '\n' :: q })) } : PState) =
        PState.mk (done ++ [Sect.mk lab (t ++ '\n' :: q) subs]) (some (lab, none)) w := by
      rw [updateSect_decomp hdone (fun x hx => absurd hx (List.not_mem_nil x)) rfl]
    rw [hst, ih done lab (t ++ '\n' :: q) subs w (n + 1)
      (fun x hx => hps x (by simp [hx])) hdone]
    simp [List.flatMap_cons, List.append_assoc]

theorem run_cont_pieces_sub (ps : List (List Char)) :
    ∀ (done : List Sect) (lab t : List Char) (cursubs : List Subsec) (slab u : List Char)
      (w : List (Nat × List Char)) (n : Nat),
    (∀ q ∈ ps, pieceTailOk q = true) →
    (∀ x ∈ done, x.number ≠ lab) →
    (∀ y ∈ cursubs, y.number ≠ slab) →
    runFrom (PState.mk (done ++ [Sect.mk lab t (cursubs ++ [Subsec.mk slab u])])
        (some (lab, some slab)) w) n ps =
      PState.mk (done ++ [Sect.mk lab t (cursubs ++ [Subsec.mk slab
        (u ++ ps.flatMap (fun q => '\n' :: q))])]) (some (lab, some slab)) w := by
  induction ps with
  | nil =>
    intro done lab t cursubs slab u w n _ _ _
    simp [runFrom]
  | cons q ps ih =>
    intro done lab t cursubs slab u w n hps hdone hsubs
    have hq := hps q (by simp)
    simp only [pieceTailOk, Bool.and_eq_true, Bool.not_eq_true',
      Option.isNone_iff_eq_none] at hq
    show runFrom (step (PState.mk (done ++ [Sect.mk lab t (cursubs ++ [Subsec.mk slab u])])
      (some (lab, some slab)) w) n q) (n + 1) ps = _
    rw [step_cont_sub hq.1.1.1 hq.1.1.2 hq.1.2 rfl]
    have hst : ({ PState.mk (done ++ [Sect.mk lab t (cursubs ++ [Subsec.mk slab u])])
        (some (lab, some slab)) w with
        out := updateSub (done ++ [Sect.mk lab t (cursubs ++ [Subsec.mk slab u])])
          lab slab q } : PState) =
        PState.mk (done ++ [Sect.mk lab t (cursubs ++ [Subsec.mk slab (u ++ '\n' :: q)])])
          (some (lab, some slab)) w := by
      rw [updateSub, updateSect_decomp hdone (fun x hx => absurd hx (List.not_mem_nil x)) rfl]
      have hmap : (cursubs ++ [Subsec.mk slab u]).map
          (fun sb => if sb.number = slab then { sb with text := sb.text ++ '\n' :: q } else sb) =
          cursubs ++ [Subsec.mk slab (u ++ '\n' :: q)] :=
        map_sub_decomp hsubs (fun y hy => absurd hy (List.not_mem_nil y)) rfl
      show PState.mk (done ++ { Sect.mk lab t (cursubs ++ [Subsec.mk slab u]) with
        subsections := (cursubs ++ [Subsec.mk slab u]).map
          (fun sb => if sb.number = slab then { sb with text := sb.text ++ '\n' :: q } else sb) }
          :: []) (some (lab, some slab)) w = _
      rw [hmap]
    rw [hst, ih done lab t cursubs slab (u ++ '\n' :: q) w (n + 1)
      (fun x hx => hps x (by simp [hx])) hdone hsubs]
    simp [List.flatMap_cons, List.append_assoc]

theorem run_nodeLines_sect (done : List Sect) (s : Sect)
    (active0 : Option (List Char × Option (List Char))) (w : List (Nat × List Char)) (n : Nat)
    (hlab : sectLabelOk s.number = true) (htext : textOk s.text = true)
    (hfresh : ∀ x ∈ done, x.number ≠ s.number) :
    runFrom (PState.mk done active0 w) n (nodeLines s.number s.text) =
      PState.mk (done ++ [Sect.mk s.number s.text []]) (some (s.number, none)) w := by
  obtain ⟨p, ps, hsp⟩ := splitNl_shape s.text
  have htext' : (headNotSpace p && p.all (fun c => !pyIsLineBreak c) &&
      ps.all pieceTailOk) = true := by
    have h0 := htext
    simp only [textOk, hsp] at h0
    exact h0
  simp only [Bool.and_eq_true] at htext'
  obtain ⟨⟨hhead, hnb⟩, hpieces⟩ := htext'
  have hps' : ∀ q ∈ ps, pieceTailOk q = true := fun q hq => List.all_eq_true.mp hpieces q hq
  have hnode : nodeLines s.number s.text = (s.number ++ ' ' :: p) :: ps := by
    simp only [nodeLines, hsp]
  rw [hnode]
  have hm : matchMain (s.number ++ ' ' :: p) = some (s.number, p) := matchMain_glue hlab hhead hnb
  have hf : findSect done s.number = none := findSect_eq_none_iff.mpr hfresh
  show runFrom (step (PState.mk done active0 w) n (s.number ++ ' ' :: p)) (n + 1) ps = _
  rw [step_main_new hm hf]
  have hst : ({ PState.mk done active0 w with
      out := done ++ [{ number := s.number, text := p, subsections := [] }],
      active := some (s.number, none) } : PState) =
      PState.mk (done ++ [Sect.mk s.number p []]) (some (s.number, none)) w := rfl
  rw [hst, run_cont_pieces_main ps done s.number p [] w (n + 1) hps' hfresh]
  have hjoin : p ++ ps.flatMap (fun q => '\n' :: q) = s.text := by
    rw [← joinNl_flat, ← hsp, joinNl_splitNl]
  rw [hjoin]

theorem run_nodeLines_sub (done : List Sect) (lab t : List Char) (cursubs : List Subsec)
    (sb : Subsec) (osub : Option (List Char)) (w : List (Nat × List Char)) (n : Nat)
    (hlab : subLabelOk sb.number = true) (htext : textOk sb.text = true)
    (hfresh : ∀ x ∈ done, x.number ≠ lab)
    (hsubfresh : ∀ y ∈ cursubs, y.number ≠ sb.number) :
    runFrom (PState.mk (done ++ [Sect.mk lab t cursubs]) (some (lab, osub)) w) n
        (nodeLines sb.number sb.text) =
      PState.mk (done ++ [Sect.mk lab t (cursubs ++ [sb])]) (some (lab, some sb.number)) w := by
  obtain ⟨p, ps, hsp⟩ := splitNl_shape sb.text
  have htext' : (headNotSpace p && p.all (fun c => !pyIsLineBreak c) &&
      ps.all pieceTailOk) = true := by
    have h0 := htext
    simp only [textOk, hsp] at h0
    exact h0
  simp only [Bool.and_eq_true] at htext'
  obtain ⟨⟨hhead, hnb⟩, hpieces⟩ := htext'
  have hps' : ∀ q ∈ ps, pieceTailOk q = true := fun q hq => List.all_eq_true.mp hpieces q hq
  have hnode : nodeLines sb.number sb.text = (sb.number ++ ' ' :: p) :: ps := by
    simp only [nodeLines, hsp]
  rw [hnode]
  have hm : matchMain (sb.number ++ ' ' :: p) = none := matchMain_glue_sub hlab
  have hs : matchSub (sb.number ++ ' ' :: p) = some (sb.number, p) := matchSub_glue hlab hhead hnb
  have hfsec : findSect (done ++ [Sect.mk lab t cursubs]) lab = some (Sect.mk lab t cursubs) := by
    rw [show done ++ [Sect.mk lab t cursubs] = done ++ Sect.mk lab t cursubs :: [] from rfl]
    exact findSect_decomp hfresh rfl
  have hex : (((Sect.mk lab t cursubs).subsections).find?
      (fun y => y.number == sb.number)).isSome = false := by
    show (cursubs.find? (fun y => y.number == sb.number)).isSome = false
    rw [List.find?_eq_none.mpr (fun y hy => by simpa using hsubfresh y hy)]
    rfl
  show runFrom (step (PState.mk (done ++ [Sect.mk lab t cursubs]) (some (lab, osub)) w) n
    (sb.number ++ ' ' :: p)) (n + 1) ps = _
  rw [step_sub_new hs rfl hfsec hex]
  have hst : ({ PState.mk (done ++ [Sect.mk lab t cursubs]) (some (lab, osub)) w with
      out := (updateSect (done ++ [Sect.mk lab t cursubs]) lab
        (fun s => { s with subsections := s.subsections ++
          [{ number := sb.number, text := p }] })),
      active := some (lab, some sb.number) } : PState) =
      PState.mk (done ++ [Sect.mk lab t (cursubs ++ [Subsec.mk sb.number p])])
        (some (lab, some sb.number)) w := by
    rw [updateSect_decomp hfresh (fun x hx => absurd hx (List.not_mem_nil x)) rfl]
  rw [hst, run_cont_pieces_sub ps done lab t cursubs sb.number p w (n + 1) hps' hfresh hsubfresh]
  have hjoin : p ++ ps.flatMap (fun q => '\n' :: q) = sb.text := by
    rw [← joinNl_flat, ← hsp, joinNl_splitNl]
  rw [hjoin]

theorem run_sub_fold (rem : List Subsec) :
    ∀ (done : List Sect) (lab t : List Char) (cursubs : List Subsec)
      (osub : Option (List Char)) (w : List (Nat × List Char)) (n : Nat),
    (∀ x ∈ done, x.number ≠ lab) →
    ((cursubs ++ rem).map Subsec.number).Nodup →
    (∀ sb ∈ rem, subLabelOk sb.number = true ∧ textOk sb.text = true) →
    runFrom (PState.mk (done ++ [Sect.mk lab t cursubs]) (some (lab, osub)) w) n
        (rem.flatMap (fun sb => nodeLines sb.number sb.text)) =
      PState.mk (done ++ [Sect.mk lab t (cursubs ++ rem)])
        (some (lab, match rem.getLast? with
                    | some x => some x.number
                    | none => osub)) w := by
  induction rem with
  | nil =>
    intro done lab t cursubs osub w n _ _ _
    simp [runFrom]
  | cons sb rem' ih =>
    intro done lab t cursubs osub w n hfresh hnd hsubs
    rw [List.flatMap_cons, runFrom_append]
    have hsubfresh : ∀ y ∈ cursubs, y.number ≠ sb.number := by
      have hnd' : ((cursubs.map Subsec.number) ++ ((sb :: rem').map Subsec.number)).Nodup := by
        simpa using hnd
      have hdisj := (List.nodup_append.mp hnd').2.2
      intro y hy heq
      exact hdisj (List.mem_map_of_mem _ hy) (by simp [heq])
    rw [run_nodeLines_sub done lab t cursubs sb osub w n (hsubs sb (by simp)).1
      (hsubs sb (by simp)).2 hfresh hsubfresh]
    have hnd2 : (((cursubs ++ [sb]) ++ rem').map Subsec.number).Nodup := by
      have hre : (cursubs ++ [sb]) ++ rem' = cursubs ++ sb :: rem' := by simp
      rw [hre]
      exact hnd
    rw [ih done lab t (cursubs ++ [sb]) (some sb.number) w
      (n + (nodeLines sb.number sb.text).length) hfresh hnd2
      (fun x hx => hsubs x (by simp [hx]))]
    cases rem' with
    | nil => simp
    | cons y ys =>
      simp only [List.getLast?_cons_cons]
      cases hgl : (y :: ys).getLast? with
      | none =>
        rw [List.getLast?_eq_none_iff] at hgl
        exact absurd hgl (by simp)
      | some z => simp

theorem run_sectLines (done : List Sect) (s : Sect)
    (active0 : Option (List Char × Option (List Char))) (w : List (Nat × List Char)) (n : Nat)
    (hlab : sectLabelOk s.number = true) (htext : textOk s.text = true)
    (hsubnd : (s.subsections.map Subsec.number).Nodup)
    (hsubs : ∀ sb ∈ s.subsections, subLabelOk sb.number = true ∧ textOk sb.text = true)
    (hfresh : ∀ x ∈ done, x.number ≠ s.number) :
    runFrom (PState.mk done active0 w) n (sectLines s) =
      PState.mk (done ++ [s]) (some (s.number, lastSubLab s)) w := by
  rw [sectLines, runFrom_append, run_nodeLines_sect done s active0 w n hlab htext hfresh]
  rw [run_sub_fold s.subsections done s.number s.text [] none w
    (n + (nodeLines s.number s.text).length) hfresh (by simpa using hsubnd) hsubs]
  have hact : (match s.subsections.getLast? with
      | some x => some x.number
      | none => (none : Option (List Char))) = lastSubLab s := by
    cases hgl : s.subsections.getLast? with
    | none => simp [lastSubLab, hgl]
    | some z => simp [lastSubLab, hgl]
  rw [hact]
  rfl

theorem run_outline_fold (o : List Sect) :
    ∀ (done : List Sect) (active0 : Option (List Char × Option (List Char)))
      (w : List (Nat × List Char)) (n : Nat),
    ((done ++ o).map Sect.number).Nodup →
    (∀ s ∈ o, sectLabelOk s.number = true ∧ textOk s.text = true ∧
      (s.subsections.map Subsec.number).Nodup ∧
      ∀ sb ∈ s.subsections, subLabelOk sb.number = true ∧ textOk sb.text = true) →
    ∃ act, runFrom (PState.mk done active0 w) n (serializeLines o) =
      PState.mk (done ++ o) act w := by
  induction o with
  | nil =>
    intro done active0 w n _ _
    exact ⟨active0, by simp [serializeLines, runFrom]⟩
  | cons s o' ih =>
    intro done active0 w n hnd hall
    simp only [serializeLines, List.flatMap_cons]
    rw [runFrom_append]
    have hfresh : ∀ x ∈ done, x.number ≠ s.number := by
      have hnd' : ((done.map Sect.number) ++ ((s :: o').map Sect.number)).Nodup := by
        simpa using hnd
      have hdisj := (List.nodup_append.mp hnd').2.2
      intro x hx heq
      exact hdisj (List.mem_map_of_mem _ hx) (by simp [heq])
    obtain ⟨hl, ht, hsnd, hsubs⟩ := hall s (by simp)
    rw [run_sectLines done s active0 w n hl ht hsnd hsubs hfresh]
    have hnd2 : (((done ++ [s]) ++ o').map Sect.number).Nodup := by
      have hre : (done ++ [s]) ++ o' = done ++ s :: o' := by simp
      rw [hre]
      exact hnd
    obtain ⟨act, hact⟩ := ih (done ++ [s]) (some (s.number, lastSubLab s)) w
      (n + (sectLines s).length) hnd2 (fun x hx => hall x (by simp [hx]))
    refine ⟨act, ?_⟩
    rw [show serializeLines o' = o'.flatMap sectLines from rfl] at hact
    rw [hact]
    simp

theorem sectLabel_chars {lab : List Char} (h : sectLabelOk lab = true) :
    lab ≠ [] ∧ ∀ c ∈ lab, pyIsLineBreak c = false := by
  obtain ⟨c, rfl, hc⟩ := sectLabelOk_spec h
  refine ⟨by simp, ?_⟩
  intro x hx
  simp only [List.mem_cons, List.mem_singleton, List.not_mem_nil, or_false] at hx
  rcases hx with rfl | rfl
  · exact upper_not_break hc
  · decide

theorem subLabel_chars {lab : List Char} (h : subLabelOk lab = true) :
    lab ≠ [] ∧ ∀ c ∈ lab, pyIsLineBreak c = false := by
  obtain ⟨c, ds, rfl, hc, _, hdig⟩ := subLabelOk_spec h
  refine ⟨by simp, ?_⟩
  intro x hx
  simp only [List.mem_cons] at hx
  rcases hx with rfl | rfl | hx
  · exact upper_not_break hc
  · decide
  · exact digit_not_break (List.all_eq_true.mp hdig x hx)

theorem nodeLines_ok {lab t : List Char} (hne : lab ≠ [])
    (hnb : ∀ c ∈ lab, pyIsLineBreak c = false) (ht : textOk t = true) :
    ∀ l ∈ nodeLines lab t, l ≠ [] ∧ ∀ c ∈ l, pyIsLineBreak c = false := by
  obtain ⟨p, ps, hsp⟩ := splitNl_shape t
  have ht' : (headNotSpace p && p.all (fun c => !pyIsLineBreak c) &&
      ps.all pieceTailOk) = true := by
    have h0 := ht
    simp only [textOk, hsp] at h0
    exact h0
  simp only [Bool.and_eq_true] at ht'
  obtain ⟨⟨_, hpnb⟩, hpieces⟩ := ht'
  intro l hl
  rw [show nodeLines lab t = (lab ++ ' ' :: p) :: ps from by simp only [nodeLines, hsp]] at hl
  rcases List.mem_cons.mp hl with rfl | hl'
  · constructor
    · cases lab with
      | nil => exact absurd rfl hne
      | cons a lab' => simp
    · intro c hc
      rcases List.mem_append.mp hc with hc1 | hc2
      · exact hnb c hc1
      · rcases List.mem_cons.mp hc2 with rfl | hc3
        · decide
        · have := List.all_eq_true.mp hpnb c hc3
          simpa using this
  · have hq := List.all_eq_true.mp hpieces l hl'
    simp only [pieceTailOk, Bool.and_eq_true, Bool.not_eq_true',
      Option.isNone_iff_eq_none] at hq
    refine ⟨by simpa using hq.1.1.1, ?_⟩
    intro c hc
    have := List.all_eq_true.mp hq.2 c hc
    simpa using this

theorem serializeLines_ok {o : List Sect}
    (hall : ∀ s ∈ o, sectLabelOk s.number = true ∧ textOk s.text = true ∧
      (s.subsections.map Subsec.number).Nodup ∧
      ∀ sb ∈ s.subsections, subLabelOk sb.number = true ∧ textOk sb.text = true) :
    ∀ l ∈ serializeLines o, l ≠ [] ∧ ∀ c ∈ l, pyIsLineBreak c = false := by
  intro l hl
  simp only [serializeLines, List.mem_flatMap] at hl
  obtain ⟨s, hs, hl⟩ := hl
  obtain ⟨hlab, htext, _, hsubs⟩ := hall s hs
  rw [sectLines] at hl
  rcases List.mem_append.mp hl with h1 | h2
  · exact nodeLines_ok (sectLabel_chars hlab).1 (sectLabel_chars hlab).2 htext l h1
  · rw [List.mem_flatMap] at h2
    obtain ⟨sb, hsb, h2⟩ := h2
    obtain ⟨hslab, hstext⟩ := hsubs sb hsb
    exact nodeLines_ok (subLabel_chars hslab).1 (subLabel_chars hslab).2 hstext l h2

/-- Counterexample to claim C5 as stated: re-serializing the outline
parsed from `"A. Recommendation(s):"` and running the Outline Builder on
it does not reproduce the outline.  The normalizer prefixes every
`"Recommendation(s):"` with a literal `"<br/>"` token, which is stored in
the section text; on re-parse the rule fires again and the text gains a
second `"<br/>"`. -/
theorem claim_C5_counterexample :
    parse_text_to_structure (serializeOutline (parse_text_to_structure
        (("A. Recommendation(s):").toList))) ≠
      parse_text_to_structure (("A. Recommendation(s):").toList) := by
  decide

/-- Claim C5 (amended): re-running the Outline Builder on the
re-serialization of an outline yields exactly that outline, provided the
outline is well formed in the sense `WFOutline`: labels have the shapes
the parser produces and are unique at each level, every accumulated text
splits into a whitespace-free-initial first piece and nonempty later
pieces that match neither label pattern and contain no line-break
characters, and the normalizer leaves the re-serialization unchanged.
(Outlines the parser produces satisfy the structural conditions; the two
normalizer conditions fail exactly in the situations the counterexample
exhibits, e.g. a stored `"Recommendation(s):"` or a stored label-shaped
line.) -/
theorem claim_C5_amended :
    ∀ o : List Sect, WFOutline o → parse_text_to_structure (serializeOutline o) = o := by
  intro o hwf
  obtain ⟨hnd, hnorm, hall⟩ := hwf
  show (runLines (pySplitlines (normalize (serializeOutline o)))).out = o
  rw [hnorm, show serializeOutline o = joinNl (serializeLines o) from rfl,
    pySplitlines_joinNl (serializeLines o) (serializeLines_ok hall)]
  obtain ⟨act, hact⟩ := run_outline_fold o [] none [] 1 (by simpa using hnd) hall
  show (runFrom (PState.mk [] none []) 1 (serializeLines o)).out = o
  rw [hact]
  simp

/-- Witness for claim C5 (amended) at a concrete outline: a two-level
well-formed outline round-trips through serialization and re-parsing. -/
theorem claim_C5_witness :
    parse_text_to_structure (serializeOutline
        [Sect.mk (("A.").toList) (("Greeting").toList)
          [Subsec.mk (("A.1").toList) (("Opening\nGood morning.").toList)],
         Sect.mk (("B.").toList) (("Closing").toList) []]) =
      [Sect.mk (("A.").toList) (("Greeting").toList)
        [Subsec.mk (("A.1").toList) (("Opening\nGood morning.").toList)],
       Sect.mk (("B.").toList) (("Closing").toList) []] :=
  claim_C5_amended
    [Sect.mk (("A.").toList) (("Greeting").toList)
      [Subsec.mk (("A.1").toList) (("Opening\nGood morning.").toList)],
     Sect.mk (("B.").toList) (("Closing").toList) []]
    (by refine ⟨by decide, by decide, by decide⟩)

end Pdfizer
